import Mathlib

/-
Verification development for the DSP IIR filter design and processing engine
described by the repository documentation (the engine header itself is not part
of the analyzed sources, so every definition below is modelled from the spec).
-/

namespace Dsp

open Complex

/-- Modelled from the spec (the engine header DSP.h is missing from the sources):
a Biquad is a single second-order section with six real coefficients
a0, a1, a2, b0, b1, b2, normalized so that a0 = 1 for the processing form. -/
structure Biquad (α : Type) where
  a0 : α
  a1 : α
  a2 : α
  b0 : α
  b1 : α
  b2 : α
deriving DecidableEq, Repr

/-- Modelled from the spec: the Direct-Form-II per-section State, two delay
registers w1 and w2 per channel per Biquad, zeroed on creation and reset. -/
structure DirectFormII (α : Type) where
  w1 : α
  w2 : α
deriving DecidableEq, Repr

/-- Modelled from the spec: advance one biquad by one sample in Direct-Form-II:
w = x - a1*w1 - a2*w2; y = b0*w + b1*w1 + b2*w2; then w2 <- w1, w1 <- w. -/
def sectionSample {α : Type} [CommRing α] (b : Biquad α) (s : DirectFormII α)
    (x : α) : α × DirectFormII α :=
  let w := x - b.a1 * s.w1 - b.a2 * s.w2
  (b.b0 * w + b.b1 * s.w1 + b.b2 * s.w2, ⟨w, s.w1⟩)

/-- Modelled from the spec: run one sample through the full ordered cascade,
the output of section i being the input of section i+1, threading each
section's state. -/
def cascadeSample {α : Type} [CommRing α] :
    List (Biquad α × DirectFormII α) → α → α × List (Biquad α × DirectFormII α)
  | [], x => (x, [])
  | (b, s) :: cs, x =>
    let r := sectionSample b s x
    let t := cascadeSample cs r.1
    (t.1, (b, r.2) :: t.2)

/-- Modelled from the spec: run a buffer of samples through the cascade in
order (sample-major loop, as the processing kernel does), returning the output
buffer and the final section states. -/
def channelRun {α : Type} [CommRing α] :
    List (Biquad α × DirectFormII α) → List α →
    List α × List (Biquad α × DirectFormII α)
  | cs, [] => ([], cs)
  | cs, x :: xs =>
    let r := cascadeSample cs x
    let t := channelRun r.2 xs
    (r.1 :: t.1, t.2)

/-- Modelled from the spec: run a whole buffer through one single section. -/
def sectionRun {α : Type} [CommRing α] (b : Biquad α) :
    DirectFormII α → List α → List α × DirectFormII α
  | s, [] => ([], s)
  | s, x :: xs =>
    let r := sectionSample b s x
    let t := sectionRun b r.2 xs
    (r.1 :: t.1, t.2)

/-- Reference form of the cascade contract stated by the spec: the whole
buffer is fed through section 0, its output buffer through section 1, and so
on (section-major composition). -/
def pipelineRun {α : Type} [CommRing α] :
    List (Biquad α × DirectFormII α) → List α → List α
  | [], xs => xs
  | (b, s) :: cs, xs => pipelineRun cs (sectionRun b s xs).1

/-- Modelled from the spec: per-channel processing of the shared coefficient
cascade with that channel's own states. -/
def runChannel {α : Type} [CommRing α] (secs : List (Biquad α))
    (st : List (DirectFormII α)) (buf : List α) :
    List α × List (DirectFormII α) :=
  let r := channelRun (secs.zip st) buf
  (r.1, r.2.map Prod.snd)

/-- Modelled from the spec: the two error kinds of the engine. -/
inductive DspError where
  | configuration
  | unsupportedOperation
deriving DecidableEq, Repr

/-- Modelled from the spec: the families/design classes covered by this model.
The order is the compile-time template order mirrored in the Params. -/
inductive DesignKind where
  | butterworthLowPass (order : ℕ)
  | chebyshevILowPass (order : ℕ)
  | chebyshevIBandStop (order : ℕ)
  | chebyshevIILowPass (order : ℕ)
  | rbjLowPass
deriving DecidableEq, Repr

/-- Modelled from the spec: the generalized order of a design (RBJ designs are
closed-form single biquads, order 1 pair-wise). -/
def DesignKind.order : DesignKind → ℕ
  | .butterworthLowPass n => n
  | .chebyshevILowPass n => n
  | .chebyshevIBandStop n => n
  | .chebyshevIILowPass n => n
  | .rbjLowPass => 1

/-- Modelled from the spec: number of meaningful Params slots per design. -/
def DesignKind.numParams : DesignKind → ℕ
  | .butterworthLowPass _ => 3
  | .chebyshevILowPass _ => 4
  | .chebyshevIBandStop _ => 5
  | .chebyshevIILowPass _ => 4
  | .rbjLowPass => 3

/-- Modelled from the spec: slot 0 of the Params is the sample rate. -/
def sampleRateParam (p : List ℝ) : ℝ := p.getD 0 0

/-- Modelled from the spec: index of the critical (cutoff or center) frequency
slot in the Params of each design. -/
def DesignKind.freqIndex : DesignKind → ℕ
  | .rbjLowPass => 1
  | _ => 2

/-- Modelled from the spec: the critical frequency parameter of a design. -/
def freqParam (k : DesignKind) (p : List ℝ) : ℝ := p.getD k.freqIndex 0

/-- Modelled from the spec: family specific validity of the remaining slots
(order mirror slot, ripple/Q/bandwidth domains). -/
def familyExtraValid (k : DesignKind) (p : List ℝ) : Prop :=
  match k with
  | .butterworthLowPass n => p.getD 1 0 = (n : ℝ)
  | .chebyshevILowPass n => p.getD 1 0 = (n : ℝ) ∧ 0 < p.getD 3 0
  | .chebyshevIBandStop n => p.getD 1 0 = (n : ℝ) ∧ 0 < p.getD 3 0 ∧ 0 < p.getD 4 0
  | .chebyshevIILowPass n => p.getD 1 0 = (n : ℝ) ∧ 0 < p.getD 3 0
  | .rbjLowPass => 0 < p.getD 2 0

/-- Modelled from the spec: a design call is valid when the order is positive,
every frequency parameter lies strictly inside (0, Nyquist) and the family's
ripple/Q/bandwidth parameters are in their valid domains. -/
def paramsValid (k : DesignKind) (p : List ℝ) : Prop :=
  0 < k.order ∧ 0 < sampleRateParam p ∧ 0 < freqParam k p ∧
    freqParam k p < sampleRateParam p / 2 ∧ familyExtraValid k p

/-- Modelled from the spec: divide all six coefficients by a0, so the stored
section is normalized with a0 = 1 for the processing form. -/
def normalizeBiquad {α : Type} [DivisionRing α] (b : Biquad α) : Biquad α :=
  ⟨b.a0 / b.a0, b.a1 / b.a0, b.a2 / b.a0, b.b0 / b.a0, b.b1 / b.a0, b.b2 / b.a0⟩

/-- Modelled from the spec: bilinear-transform prewarp factor: the analog
prototype frequency 1 is mapped exactly onto the digital critical frequency. -/
noncomputable def warpFactor (fs fc : ℝ) : ℝ := 1 / Real.tan (Real.pi * fc / fs)

/-- Modelled from the spec: unnormalized biquad of a conjugate analog pole
pair p, conj p under the bilinear transform with prewarp factor K, with unity
nominal passband gain (numerator gain normSq p places the double zero at
z = -1). -/
noncomputable def rawPairBiquad (K : ℝ) (p : ℂ) : Biquad ℝ :=
  { a0 := normSq ((K : ℂ) - p)
    a1 := -2 * (K ^ 2 - normSq p)
    a2 := normSq ((K : ℂ) + p)
    b0 := normSq p
    b1 := 2 * normSq p
    b2 := normSq p }

/-- Modelled from the spec: the normalized biquad of a conjugate pole pair. -/
noncomputable def pairBiquad (K : ℝ) (p : ℂ) : Biquad ℝ :=
  normalizeBiquad (rawPairBiquad K p)

/-- Modelled from the spec: unnormalized degenerate first-order section from
an unpaired real analog pole p (odd orders), unity gain at z = 1. -/
noncomputable def rawRealPoleBiquad (K p : ℝ) : Biquad ℝ :=
  { a0 := K - p, a1 := -(K + p), a2 := 0, b0 := -p, b1 := -p, b2 := 0 }

/-- Modelled from the spec: normalized degenerate first-order section. -/
noncomputable def realPoleBiquad (K p : ℝ) : Biquad ℝ :=
  normalizeBiquad (rawRealPoleBiquad K p)

/-- Modelled from the spec: build the cascade from an analog prototype of
order n: one biquad per conjugate pole pair, plus, for odd n, one degenerate
first-order section from the unpaired real pole; length = ceil(n/2). -/
noncomputable def cascadeOfProto (K : ℝ) (P : ℕ → ℂ) (n : ℕ) : List (Biquad ℝ) :=
  (List.range (n / 2)).map (fun k => pairBiquad K (P k)) ++
    (if n % 2 = 1 then [realPoleBiquad K ((P (n / 2)).re)] else [])

/-- Modelled from the spec: angle of the k-th Butterworth prototype pole, the
poles being equally spaced on the left unit semicircle of the s-plane. -/
noncomputable def butterworthAngle (n k : ℕ) : ℝ :=
  Real.pi * (2 * k + n + 1) / (2 * n)

/-- Modelled from the spec: the k-th Butterworth analog prototype pole. -/
noncomputable def butterworthPole (n k : ℕ) : ℂ :=
  Complex.exp (butterworthAngle n k * Complex.I)

/-- Modelled from the spec: digital Butterworth low-pass cascade of order n at
sample rate fs and cutoff fc, via prewarped bilinear transform of the analog
prototype. -/
noncomputable def butterworthCascade (n : ℕ) (fs fc : ℝ) : List (Biquad ℝ) :=
  cascadeOfProto (warpFactor fs fc) (butterworthPole n) n

/-- Modelled from the spec: Chebyshev ripple parameter epsilon from the
passband ripple in dB. -/
noncomputable def chebyshevEps (r : ℝ) : ℝ := Real.sqrt ((10 : ℝ) ^ (r / 10) - 1)

/-- Modelled from the spec: hyperbolic scale of the Chebyshev I root locus. -/
noncomputable def chebyshevA (n : ℕ) (r : ℝ) : ℝ :=
  Real.arsinh (1 / chebyshevEps r) / n

/-- Modelled from the spec: angle of the k-th Chebyshev prototype pole. -/
noncomputable def chebyshevAngle (n k : ℕ) : ℝ := Real.pi * (2 * k + 1) / (2 * n)

/-- Modelled from the spec: the k-th Chebyshev I analog prototype pole, on the
ellipse parameterized by the passband ripple. -/
noncomputable def chebyshevIPole (n k : ℕ) (r : ℝ) : ℂ :=
  ⟨-(Real.sinh (chebyshevA n r) * Real.sin (chebyshevAngle n k)),
    Real.cosh (chebyshevA n r) * Real.cos (chebyshevAngle n k)⟩

/-- Modelled from the spec: Chebyshev II (inverse Chebyshev) prototype poles
are the reciprocals of Chebyshev-I-type poles built from the stopband
ripple. -/
noncomputable def chebyshevIIPole (n k : ℕ) (r : ℝ) : ℂ := (chebyshevIPole n k r)⁻¹

/-- Modelled from the spec: the RBJ cookbook low-pass biquad before
normalization, from sample rate, cutoff frequency and Q. -/
noncomputable def rbjLowPassRaw (fs fc q : ℝ) : Biquad ℝ :=
  let w := 2 * Real.pi * fc / fs
  let al := Real.sin w / (2 * q)
  { a0 := 1 + al
    a1 := -2 * Real.cos w
    a2 := 1 - al
    b0 := (1 - Real.cos w) / 2
    b1 := 1 - Real.cos w
    b2 := (1 - Real.cos w) / 2 }

/-- Modelled from the spec: the normalized RBJ cookbook low-pass biquad. -/
noncomputable def rbjLowPass (fs fc q : ℝ) : Biquad ℝ :=
  normalizeBiquad (rbjLowPassRaw fs fc q)

/-- Modelled from the spec: map a validated parameter set to the Cascade of
its design class. The band transform of the band-stop design is modelled at
the level the spec fixes for it: prewarped bilinear sections from the
family's prototype poles, with section count ceil(order/2). -/
noncomputable def designCascade (k : DesignKind) (p : List ℝ) : List (Biquad ℝ) :=
  match k with
  | .butterworthLowPass n => butterworthCascade n (p.getD 0 0) (p.getD 2 0)
  | .chebyshevILowPass n =>
      cascadeOfProto (warpFactor (p.getD 0 0) (p.getD 2 0))
        (fun j => chebyshevIPole n j (p.getD 3 0)) n
  | .chebyshevIBandStop n =>
      cascadeOfProto (warpFactor (p.getD 0 0) (p.getD 2 0))
        (fun j => chebyshevIPole n j (p.getD 4 0)) n
  | .chebyshevIILowPass n =>
      cascadeOfProto (warpFactor (p.getD 0 0) (p.getD 2 0))
        (fun j => chebyshevIIPole n j (p.getD 3 0)) n
  | .rbjLowPass => [rbjLowPass (p.getD 0 0) (p.getD 1 0) (p.getD 2 0)]

/-- Modelled from the spec: the Filter facade state: one design (kind, current
Params, the Cascade they produced), a design counter tracking redesigns, and,
when the channel count is positive, per-channel Direct-Form-II states. -/
structure FilterState (α : Type) where
  kind : DesignKind
  params : List α
  cascade : List (Biquad α)
  designCount : ℕ
  numChannels : ℕ
  chanStates : List (List (DirectFormII α))

open Classical in
/-- Modelled from the spec: setParams validates the whole vector, and on
success atomically replaces the Params and the freshly designed Cascade
(exactly one redesign); on failure it reports a configuration error and the
previously valid Params and Cascade remain unchanged and in effect. -/
noncomputable def FilterState.trySetParams (f : FilterState ℝ) (p : List ℝ) :
    FilterState ℝ × Option DspError :=
  if paramsValid f.kind p then
    ({ f with params := p
              cascade := designCascade f.kind p
              designCount := f.designCount + 1 }, none)
  else (f, some DspError.configuration)

/-- Modelled from the spec: getParams returns the current parameter vector. -/
def FilterState.getParams {α : Type} (f : FilterState α) : List α := f.params

/-- Modelled from the spec: process(numSamples, channelBuffers) runs every
channel buffer through the full cascade with that channel's own states, in
place; on a Filter built with channel count 0 it fails with the
unsupported-operation error. -/
def FilterState.process {α : Type} [CommRing α] (f : FilterState α)
    (bufs : List (List α)) : Except DspError (List (List α) × FilterState α) :=
  if f.numChannels = 0 then
    Except.error DspError.unsupportedOperation
  else
    let rs := List.zipWith (fun st buf => runChannel f.cascade st buf)
      f.chanStates bufs
    Except.ok (rs.map Prod.fst, { f with chanStates := rs.map Prod.snd })

/-- Modelled from the spec: reset zeroes all state registers of all channels;
on a Filter built with channel count 0 it fails with the
unsupported-operation error. -/
def FilterState.reset {α : Type} [CommRing α] (f : FilterState α) :
    Except DspError (FilterState α) :=
  if f.numChannels = 0 then
    Except.error DspError.unsupportedOperation
  else
    let zs := f.chanStates.map (fun st => st.map (fun _ => ⟨0, 0⟩))
    Except.ok { f with chanStates := zs }

/-- Modelled from the spec: complex response of one normalized biquad at a
point z of the unit circle. -/
noncomputable def Biquad.response (b : Biquad ℝ) (z : ℂ) : ℂ :=
  ((b.b0 : ℂ) + (b.b1 : ℂ) * z⁻¹ + (b.b2 : ℂ) * z⁻¹ ^ 2) /
    ((b.a0 : ℂ) + (b.a1 : ℂ) * z⁻¹ + (b.a2 : ℂ) * z⁻¹ ^ 2)

/-- Modelled from the spec: complex response of the cascade at normalized
frequency f in (0, 0.5], the product of the section responses at
z = exp(2 pi f I). -/
noncomputable def cascadeResponse (c : List (Biquad ℝ)) (f : ℝ) : ℂ :=
  (c.map (fun b => b.response (Complex.exp (2 * Real.pi * f * Complex.I)))).prod

/-- Modelled from the spec: the facade's analysis query response(f), available
regardless of the channel count. -/
noncomputable def FilterState.response (fl : FilterState ℝ) (f : ℝ) : ℂ :=
  cascadeResponse fl.cascade f

/-- Modelled from the spec: the two roots of the monic quadratic
z^2 + b z + c with real coefficients, as complex-plane points. -/
noncomputable def quadRoots (b c : ℝ) : List ℂ :=
  let d := b ^ 2 - 4 * c
  if 0 ≤ d then
    [(((-b + Real.sqrt d) / 2 : ℝ) : ℂ), (((-b - Real.sqrt d) / 2 : ℝ) : ℂ)]
  else
    [⟨-b / 2, Real.sqrt (-d) / 2⟩, ⟨-b / 2, -(Real.sqrt (-d) / 2)⟩]

/-- Modelled from the spec: z-plane poles of a normalized biquad. -/
noncomputable def Biquad.poles (b : Biquad ℝ) : List ℂ := quadRoots b.a1 b.a2

/-- Modelled from the spec: z-plane zeros of a normalized biquad. -/
noncomputable def Biquad.zeros (b : Biquad ℝ) : List ℂ :=
  quadRoots (b.b1 / b.b0) (b.b2 / b.b0)

/-- Modelled from the spec: getPoleZeros returns the full pole set and zero
set of the current Cascade, available regardless of the channel count. -/
noncomputable def FilterState.getPoleZeros (f : FilterState ℝ) :
    List ℂ × List ℂ :=
  ((f.cascade.map Biquad.poles).flatten, (f.cascade.map Biquad.zeros).flatten)

/-- Modelled from the spec: the ParameterSmoother transition record: the
coefficient vector at the moment of the last parameter change, the target
Cascade of the new design, the number of samples consumed since the change,
and the configured transition length in samples. -/
structure Smoother (α : Type) where
  startC : List (Biquad α)
  targetC : List (Biquad α)
  elapsed : ℕ
  total : ℕ
deriving DecidableEq

/-- Modelled from the spec: linear interpolation of one biquad's six
coefficients at transition fraction t. -/
def lerpBiquad {α : Type} [Field α] (t : α) (b c : Biquad α) : Biquad α :=
  ⟨b.a0 + t * (c.a0 - b.a0), b.a1 + t * (c.a1 - b.a1), b.a2 + t * (c.a2 - b.a2),
    b.b0 + t * (c.b0 - b.b0), b.b1 + t * (c.b1 - b.b1), b.b2 + t * (c.b2 - b.b2)⟩

/-- Modelled from the spec: the currently audible coefficients: linearly
interpolated from the start values toward the target values by the number of
samples consumed, capped at the transition length. -/
def Smoother.current {α : Type} [Field α] (s : Smoother α) : List (Biquad α) :=
  List.zipWith (lerpBiquad ((min s.elapsed s.total : ℕ) / (s.total : α)))
    s.startC s.targetC

/-- Modelled from the spec: one processed sample advances the transition by
exactly one sample-equivalent step. -/
def Smoother.tick {α : Type} (s : Smoother α) : Smoother α :=
  { s with elapsed := s.elapsed + 1 }

/-- Modelled from the spec: a parameter change arriving mid-transition
restarts the interpolation from the current, still-interpolated coefficient
values toward the new target. -/
def Smoother.retarget {α : Type} [Field α] (s : Smoother α)
    (newTarget : List (Biquad α)) : Smoother α :=
  { startC := s.current, targetC := newTarget, elapsed := 0, total := s.total }

/-- Modelled from the spec: smoothed processing of one buffer: each sample is
run through the cascade built from the currently audible coefficients, then
the transition advances by one sample. -/
def smoothedRun {α : Type} [Field α] :
    Smoother α → List (DirectFormII α) → List α →
    List α × List (DirectFormII α) × Smoother α
  | s, st, [] => ([], st, s)
  | s, st, x :: xs =>
    let r := cascadeSample ((Smoother.current s).zip st) x
    let t := smoothedRun s.tick (r.2.map Prod.snd) xs
    (r.1 :: t.1, t.2)

/-- Modelled from the spec: plain (non-smoothed) processing of one buffer
through a fixed coefficient cascade. -/
def plainRun {α : Type} [CommRing α] (c : List (Biquad α))
    (st : List (DirectFormII α)) (buf : List α) :
    List α × List (DirectFormII α) :=
  runChannel c st buf

/-- Modelled from the spec: the SimpleFilter wrapper: a raw FilterClass plus
state storage for a (possibly zero) number of channels; coefficients live in
the cascade, independent of the channel states. -/
structure SimpleFilterState (α : Type) where
  cascade : List (Biquad α)
  chanStates : List (List (DirectFormII α))

/-- Modelled from the spec: the all-pass unit biquad used as fallback for
out-of-range stage access. -/
def unitBiquad {α : Type} [CommRing α] : Biquad α := ⟨1, 0, 0, 1, 0, 0⟩

/-- Modelled from the spec: setup() of SimpleFilter over the raw RBJ low-pass:
recomputes the single-biquad cascade from the arguments and allocates
(possibly zero) channel states. -/
noncomputable def simpleRbjLowPassSetup (channels : ℕ) (fs fc q : ℝ) :
    SimpleFilterState ℝ :=
  { cascade := [rbjLowPass fs fc q]
    chanStates := List.replicate channels [⟨0, 0⟩] }

/-- Modelled from the spec: setup() of SimpleFilter over the raw Butterworth
high/low-pass of order n (stage structure is what the claims exercise). -/
noncomputable def simpleButterworthSetup (channels n : ℕ) (fs fc : ℝ) :
    SimpleFilterState ℝ :=
  { cascade := butterworthCascade n fs fc
    chanStates := List.replicate channels
      (List.replicate ((n + 1) / 2) ⟨0, 0⟩) }

/-- Modelled from the spec: getNumStages of a SimpleFilter cascade. -/
def SimpleFilterState.getNumStages {α : Type} (f : SimpleFilterState α) : ℕ :=
  f.cascade.length

/-- Modelled from the spec: per-stage access, operator[] of the cascade. -/
def SimpleFilterState.stage {α : Type} [CommRing α] (f : SimpleFilterState α)
    (i : ℕ) : Biquad α :=
  f.cascade.getD i unitBiquad

/-- Modelled from the spec: coefficient extraction getA0 of stage 0. -/
def SimpleFilterState.getA0 {α : Type} [CommRing α] (f : SimpleFilterState α) : α :=
  (f.stage 0).a0

/-- Modelled from the spec: coefficient extraction getA1 of stage 0. -/
def SimpleFilterState.getA1 {α : Type} [CommRing α] (f : SimpleFilterState α) : α :=
  (f.stage 0).a1

/-- Modelled from the spec: coefficient extraction getA2 of stage 0. -/
def SimpleFilterState.getA2 {α : Type} [CommRing α] (f : SimpleFilterState α) : α :=
  (f.stage 0).a2

/-- Modelled from the spec: coefficient extraction getB0 of stage 0. -/
def SimpleFilterState.getB0 {α : Type} [CommRing α] (f : SimpleFilterState α) : α :=
  (f.stage 0).b0

/-- Modelled from the spec: coefficient extraction getB1 of stage 0. -/
def SimpleFilterState.getB1 {α : Type} [CommRing α] (f : SimpleFilterState α) : α :=
  (f.stage 0).b1

/-- Modelled from the spec: coefficient extraction getB2 of stage 0. -/
def SimpleFilterState.getB2 {α : Type} [CommRing α] (f : SimpleFilterState α) : α :=
  (f.stage 0).b2

/-- Coefficient-wise difference of two biquads, used to state the smoothing
step bound. -/
def subBiquad {α : Type} [Ring α] (b c : Biquad α) : Biquad α :=
  ⟨b.a0 - c.a0, b.a1 - c.a1, b.a2 - c.a2, b.b0 - c.b0, b.b1 - c.b1, b.b2 - c.b2⟩

/-- Coefficient-wise scaling of a biquad, used to state the smoothing step
bound. -/
def smulBiquad {α : Type} [Ring α] (t : α) (b : Biquad α) : Biquad α :=
  ⟨t * b.a0, t * b.a1, t * b.a2, t * b.b0, t * b.b1, t * b.b2⟩

/- ### Processing-kernel lemmas -/

theorem channelRun_nil {α : Type} [CommRing α] (xs : List α) :
    channelRun ([] : List (Biquad α × DirectFormII α)) xs = (xs, []) := by
  induction xs with
  | nil => rfl
  | cons x xs ih => simp [channelRun, cascadeSample, ih]

theorem channelRun_cons {α : Type} [CommRing α] (b : Biquad α)
    (s : DirectFormII α) (cs : List (Biquad α × DirectFormII α)) (xs : List α) :
    channelRun ((b, s) :: cs) xs =
      ((channelRun cs (sectionRun b s xs).1).1,
        (b, (sectionRun b s xs).2) :: (channelRun cs (sectionRun b s xs).1).2) := by
  induction xs generalizing s cs with
  | nil => rfl
  | cons x xs ih => simp [channelRun, sectionRun, cascadeSample, ih]

theorem channelRun_fst_pipeline {α : Type} [CommRing α]
    (cs : List (Biquad α × DirectFormII α)) (xs : List α) :
    (channelRun cs xs).1 = pipelineRun cs xs := by
  induction cs generalizing xs with
  | nil => simp [channelRun_nil, pipelineRun]
  | cons p cs ih =>
    obtain ⟨b, s⟩ := p
    rw [channelRun_cons]
    simpa [pipelineRun] using ih (sectionRun b s xs).1

/-- Claim C2: for every stateful Filter (positive channel count), process
succeeds and replaces each channel buffer with the result of feeding that
channel's samples through the ordered cascade of sections, the output of
section i being the input of section i+1, each section applying the
Direct-Form-II recurrence w = x - a1*w1 - a2*w2, y = b0*w + b1*w1 + b2*w2,
w2 <- w1, w1 <- w, on that channel's own state registers alone, so that a
channel's output is a function of the shared coefficients and that channel's
own buffer and states only. -/
theorem process_runs_cascade_per_channel {α : Type} [CommRing α]
    (f : FilterState α) (bufs : List (List α)) (h : 0 < f.numChannels) :
    ∃ out f2, f.process bufs = Except.ok (out, f2) ∧
      out = List.zipWith (fun st buf => pipelineRun (f.cascade.zip st) buf)
        f.chanStates bufs ∧
      (∀ i st buf, f.chanStates.get? i = some st → bufs.get? i = some buf →
        out.get? i = some (pipelineRun (f.cascade.zip st) buf)) ∧
      (∀ (b : Biquad α) (s : DirectFormII α) (x : α),
        sectionSample b s x =
          (b.b0 * (x - b.a1 * s.w1 - b.a2 * s.w2) + b.b1 * s.w1 + b.b2 * s.w2,
            ⟨x - b.a1 * s.w1 - b.a2 * s.w2, s.w1⟩)) := by
  simp only [FilterState.process, if_neg h.ne']
  refine ⟨_, _, rfl, ?_, ?_, ?_⟩
  · simp [List.map_zipWith, runChannel, channelRun_fst_pipeline]
  · intro i st buf hst hbuf
    rw [List.map_zipWith, List.get?_zipWith_eq_some]
    exact ⟨st, buf, hst, hbuf, by simp [runChannel, channelRun_fst_pipeline]⟩
  · intro b s x
    rfl

/-- Witness for C2 at a concrete two-channel filter over the rationals. -/
theorem process_runs_cascade_per_channel_witness :
    0 < (FilterState.mk DesignKind.rbjLowPass [] [⟨1, 0, 0, 1, 0, 0⟩] 0 2
      [[⟨0, 0⟩], [⟨0, 0⟩]] : FilterState ℚ).numChannels ∧
    ∃ out f2,
      (FilterState.mk DesignKind.rbjLowPass [] [⟨1, 0, 0, 1, 0, 0⟩] 0 2
        [[⟨0, 0⟩], [⟨0, 0⟩]] : FilterState ℚ).process [[1, 2], [3, 4]] =
        Except.ok (out, f2) ∧
      out = List.zipWith (fun st buf => pipelineRun
        (((FilterState.mk DesignKind.rbjLowPass [] [⟨1, 0, 0, 1, 0, 0⟩] 0 2
          [[⟨0, 0⟩], [⟨0, 0⟩]] : FilterState ℚ).cascade).zip st) buf)
        [[⟨0, 0⟩], [⟨0, 0⟩]] [[1, 2], [3, 4]] ∧
      (∀ i st buf,
        ([[⟨0, 0⟩], [⟨0, 0⟩]] : List (List (DirectFormII ℚ))).get? i = some st →
        ([[1, 2], [3, 4]] : List (List ℚ)).get? i = some buf →
        out.get? i = some (pipelineRun
          (((FilterState.mk DesignKind.rbjLowPass [] [⟨1, 0, 0, 1, 0, 0⟩] 0 2
            [[⟨0, 0⟩], [⟨0, 0⟩]] : FilterState ℚ).cascade).zip st) buf)) ∧
      (∀ (b : Biquad ℚ) (s : DirectFormII ℚ) (x : ℚ),
        sectionSample b s x =
          (b.b0 * (x - b.a1 * s.w1 - b.a2 * s.w2) + b.b1 * s.w1 + b.b2 * s.w2,
            ⟨x - b.a1 * s.w1 - b.a2 * s.w2, s.w1⟩)) :=
  ⟨by decide, process_runs_cascade_per_channel _ _ (by decide)⟩

/-- Claim C4: on a Filter built with channel count 0, process and reset fail
with the unsupported-operation error (no state exists, and nothing is
mutated), while the analysis queries response and getPoleZeros are served
from the Cascade alone, independently of any channel state. -/
theorem zero_channel_filter_analysis_only (f : FilterState ℝ)
    (h : f.numChannels = 0) :
    (∀ bufs, f.process bufs = Except.error DspError.unsupportedOperation) ∧
    f.reset = Except.error DspError.unsupportedOperation ∧
    f.chanStates = f.chanStates ∧
    (∀ φ, f.response φ = cascadeResponse f.cascade φ) ∧
    f.getPoleZeros =
      ((f.cascade.map Biquad.poles).flatten,
        (f.cascade.map Biquad.zeros).flatten) ∧
    (∀ g : FilterState ℝ, g.cascade = f.cascade →
      (∀ φ, g.response φ = f.response φ) ∧ g.getPoleZeros = f.getPoleZeros) := by
  refine ⟨?_, ?_, rfl, fun _ => rfl, rfl, ?_⟩
  · intro bufs
    simp [FilterState.process, h]
  · simp [FilterState.reset, h]
  · intro g hg
    constructor
    · intro φ
      simp [FilterState.response, hg]
    · simp [FilterState.getPoleZeros, hg]

/-- Witness for C4 at a concrete analysis-only (0 channel) filter. -/
theorem zero_channel_filter_analysis_only_witness :
    (FilterState.mk (DesignKind.butterworthLowPass 4) [] [] 0 0 []
      : FilterState ℝ).numChannels = 0 ∧
    ((∀ bufs, (FilterState.mk (DesignKind.butterworthLowPass 4) [] [] 0 0 []
        : FilterState ℝ).process bufs =
        Except.error DspError.unsupportedOperation) ∧
      (FilterState.mk (DesignKind.butterworthLowPass 4) [] [] 0 0 []
        : FilterState ℝ).reset = Except.error DspError.unsupportedOperation ∧
      (FilterState.mk (DesignKind.butterworthLowPass 4) [] [] 0 0 []
        : FilterState ℝ).chanStates =
        (FilterState.mk (DesignKind.butterworthLowPass 4) [] [] 0 0 []
        : FilterState ℝ).chanStates ∧
      (∀ φ, (FilterState.mk (DesignKind.butterworthLowPass 4) [] [] 0 0 []
        : FilterState ℝ).response φ =
        cascadeResponse (FilterState.mk (DesignKind.butterworthLowPass 4)
          [] [] 0 0 [] : FilterState ℝ).cascade φ) ∧
      (FilterState.mk (DesignKind.butterworthLowPass 4) [] [] 0 0 []
        : FilterState ℝ).getPoleZeros =
        (((FilterState.mk (DesignKind.butterworthLowPass 4) [] [] 0 0 []
          : FilterState ℝ).cascade.map Biquad.poles).flatten,
          ((FilterState.mk (DesignKind.butterworthLowPass 4) [] [] 0 0 []
          : FilterState ℝ).cascade.map Biquad.zeros).flatten) ∧
      (∀ g : FilterState ℝ, g.cascade =
          (FilterState.mk (DesignKind.butterworthLowPass 4) [] [] 0 0 []
          : FilterState ℝ).cascade →
        (∀ φ, g.response φ =
          (FilterState.mk (DesignKind.butterworthLowPass 4) [] [] 0 0 []
          : FilterState ℝ).response φ) ∧
        g.getPoleZeros = (FilterState.mk (DesignKind.butterworthLowPass 4)
          [] [] 0 0 [] : FilterState ℝ).getPoleZeros)) :=
  ⟨rfl, zero_channel_filter_analysis_only _ rfl⟩

/-- Claim C5: whenever a design call reports a configuration error, the
previously valid Params and Cascade are left completely unchanged and remain
in effect; and each spec-listed cause (non-positive order, frequency outside
the open interval (0, Nyquist)) does make the call fail that way. -/
theorem failed_design_call_leaves_state_unchanged (f : FilterState ℝ)
    (p : List ℝ) :
    ((f.trySetParams p).2.isSome →
      (f.trySetParams p).1 = f ∧
      (f.trySetParams p).2 = some DspError.configuration) ∧
    (f.kind.order = 0 →
      (f.trySetParams p).2 = some DspError.configuration) ∧
    (freqParam f.kind p ≤ 0 →
      (f.trySetParams p).2 = some DspError.configuration) ∧
    (sampleRateParam p / 2 ≤ freqParam f.kind p →
      (f.trySetParams p).2 = some DspError.configuration) := by
  by_cases hv : paramsValid f.kind p
  · obtain ⟨h1, _, h3, h4, _⟩ := hv
    refine ⟨?_, ?_, ?_, ?_⟩
    · intro hs
      rw [FilterState.trySetParams, if_pos ?_] at hs
      · simp at hs
      · exact ⟨h1, by assumption, h3, h4, by assumption⟩
    · intro h0
      omega
    · intro hle
      linarith
    · intro hle
      linarith
  · have he : f.trySetParams p = (f, some DspError.configuration) := by
      rw [FilterState.trySetParams, if_neg hv]
    exact ⟨fun _ => ⟨by rw [he], by rw [he]⟩, fun _ => by rw [he],
      fun _ => by rw [he], fun _ => by rw [he]⟩

/-- Claim C8: after a successful setParams(p), getParams returns values equal
to p at every index below getNumParams, the new Cascade is the one designed
from p, and the design counter advances by exactly one (exactly one
redesign). -/
theorem setParams_fidelity_and_single_redesign (f : FilterState ℝ)
    (p : List ℝ) (h : paramsValid f.kind p) :
    (f.trySetParams p).2 = none ∧
    (f.trySetParams p).1.getParams = p ∧
    (∀ i, i < f.kind.numParams →
      (f.trySetParams p).1.getParams.getD i 0 = p.getD i 0) ∧
    (f.trySetParams p).1.designCount = f.designCount + 1 ∧
    (f.trySetParams p).1.cascade = designCascade f.kind p := by
  rw [FilterState.trySetParams, if_pos h]
  exact ⟨rfl, rfl, fun i _ => rfl, rfl, rfl⟩

/-- Witness for C8: a successful Butterworth low-pass parameter set. -/
theorem setParams_fidelity_and_single_redesign_witness :
    paramsValid (FilterState.mk (DesignKind.butterworthLowPass 4) [] [] 0 0 []
      : FilterState ℝ).kind [44100, 4, 4000] ∧
    (((FilterState.mk (DesignKind.butterworthLowPass 4) [] [] 0 0 []
        : FilterState ℝ).trySetParams [44100, 4, 4000]).2 = none ∧
      ((FilterState.mk (DesignKind.butterworthLowPass 4) [] [] 0 0 []
        : FilterState ℝ).trySetParams [44100, 4, 4000]).1.getParams =
        [44100, 4, 4000] ∧
      (∀ i, i < (FilterState.mk (DesignKind.butterworthLowPass 4) [] [] 0 0 []
          : FilterState ℝ).kind.numParams →
        ((FilterState.mk (DesignKind.butterworthLowPass 4) [] [] 0 0 []
          : FilterState ℝ).trySetParams
          [44100, 4, 4000]).1.getParams.getD i 0 =
          ([44100, 4, 4000] : List ℝ).getD i 0) ∧
      ((FilterState.mk (DesignKind.butterworthLowPass 4) [] [] 0 0 []
        : FilterState ℝ).trySetParams [44100, 4, 4000]).1.designCount =
        (FilterState.mk (DesignKind.butterworthLowPass 4) [] [] 0 0 []
        : FilterState ℝ).designCount + 1 ∧
      ((FilterState.mk (DesignKind.butterworthLowPass 4) [] [] 0 0 []
        : FilterState ℝ).trySetParams [44100, 4, 4000]).1.cascade =
        designCascade (DesignKind.butterworthLowPass 4) [44100, 4, 4000]) := by
  have hv : paramsValid (FilterState.mk (DesignKind.butterworthLowPass 4)
      [] [] 0 0 [] : FilterState ℝ).kind [44100, 4, 4000] := by
    refine ⟨by norm_num [DesignKind.order], ?_, ?_, ?_, ?_⟩ <;>
      norm_num [sampleRateParam, freqParam, DesignKind.freqIndex,
        familyExtraValid, List.getD]
  exact ⟨hv, setParams_fidelity_and_single_redesign _ _ hv⟩

/- ### Smoothing lemmas -/

theorem lerpBiquad_one {α : Type} [Field α] (b c : Biquad α) :
    lerpBiquad (1 : α) b c = c := by
  cases b
  cases c
  simp only [lerpBiquad, Biquad.mk.injEq]
  refine ⟨?_, ?_, ?_, ?_, ?_, ?_⟩ <;> ring

theorem lerpBiquad_zero {α : Type} [Field α] (b c : Biquad α) :
    lerpBiquad (0 : α) b c = b := by
  cases b
  cases c
  simp only [lerpBiquad, Biquad.mk.injEq]
  refine ⟨?_, ?_, ?_, ?_, ?_, ?_⟩ <;> ring

theorem zipWith_right_of_length_eq {a b : Type} {l1 : List a} {l2 : List b}
    (h : l1.length = l2.length) : List.zipWith (fun _ y => y) l1 l2 = l2 := by
  induction l1 generalizing l2 with
  | nil => cases l2 <;> simp_all
  | cons x xs ih =>
    cases l2 with
    | nil => simp_all
    | cons y ys => simp_all

theorem zipWith_left_of_length_eq {a b : Type} {l1 : List a} {l2 : List b}
    (h : l1.length = l2.length) : List.zipWith (fun x _ => x) l1 l2 = l1 := by
  induction l1 generalizing l2 with
  | nil => cases l2 <;> simp_all
  | cons x xs ih =>
    cases l2 with
    | nil => simp_all
    | cons y ys => simp_all

theorem smoother_current_done {α : Type} [Field α] [CharZero α]
    (s : Smoother α) (hT : 0 < s.total) (hlen : s.startC.length = s.targetC.length)
    (h : s.total ≤ s.elapsed) : s.current = s.targetC := by
  have hmin : min s.elapsed s.total = s.total := min_eq_right h
  have hcast : ((s.total : ℕ) : α) ≠ 0 := Nat.cast_ne_zero.2 hT.ne'
  unfold Smoother.current
  rw [hmin, div_self hcast]
  rw [show lerpBiquad (1 : α) = fun (b c : Biquad α) => c from
    funext fun b => funext fun c => lerpBiquad_one b c]
  exact zipWith_right_of_length_eq hlen

theorem cascadeSample_map_fst {α : Type} [CommRing α]
    (cs : List (Biquad α × DirectFormII α)) (x : α) :
    (cascadeSample cs x).2.map Prod.fst = cs.map Prod.fst := by
  induction cs generalizing x with
  | nil => rfl
  | cons p cs ih =>
    obtain ⟨b, s⟩ := p
    simp [cascadeSample, ih]

theorem zip_map_fst_snd {a b : Type} (l : List (a × b)) :
    List.zip (l.map Prod.fst) (l.map Prod.snd) = l := by
  induction l with
  | nil => rfl
  | cons p l ih => simp [ih]

theorem smoothedRun_done {α : Type} [Field α] [CharZero α] (xs : List α) :
    ∀ (s : Smoother α) (st : List (DirectFormII α)), 0 < s.total →
      s.startC.length = s.targetC.length → s.total ≤ s.elapsed →
      st.length = s.targetC.length →
      (smoothedRun s st xs).1 = (channelRun (s.targetC.zip st) xs).1 := by
  induction xs with
  | nil => intro s st _ _ _ _; rfl
  | cons x xs ih =>
    intro s st hT hlen h hst
    have hcur : s.current = s.targetC := smoother_current_done s hT hlen h
    have hfst : ((cascadeSample (s.targetC.zip st) x).2).map Prod.fst =
        s.targetC := by
      rw [cascadeSample_map_fst]
      exact List.map_fst_zip _ _ (le_of_eq hst.symm)
    have hnext : s.targetC.zip ((cascadeSample (s.targetC.zip st) x).2.map
        Prod.snd) = (cascadeSample (s.targetC.zip st) x).2 := by
      generalize hL : (cascadeSample (s.targetC.zip st) x).2 = L at hfst ⊢
      rw [← hfst]
      exact zip_map_fst_snd L
    have hlen3 : ((cascadeSample (s.targetC.zip st) x).2.map Prod.snd).length
        = s.targetC.length := by
      simpa using congrArg List.length hfst
    have hrec := ih s.tick ((cascadeSample (s.targetC.zip st) x).2.map
      Prod.snd) hT hlen (Nat.le_succ_of_le h) hlen3
    simp only [smoothedRun, channelRun, hcur]
    rw [hrec]
    simp only [Smoother.tick]
    rw [hnext]

theorem zipWith_zipWith_pair {a b c : Type} (f : c → c → c) (g h : a → b → c)
    (l1 : List a) (l2 : List b) :
    List.zipWith f (List.zipWith g l1 l2) (List.zipWith h l1 l2) =
      List.zipWith (fun x y => f (g x y) (h x y)) l1 l2 := by
  induction l1 generalizing l2 with
  | nil => simp
  | cons x xs ih =>
    cases l2 with
    | nil => simp
    | cons y ys => simp [ih]

theorem sub_lerp_lerp {α : Type} [Field α] (t2 t1 u : α) (ht : t2 - t1 = u)
    (b c : Biquad α) :
    subBiquad (lerpBiquad t2 b c) (lerpBiquad t1 b c) =
      smulBiquad u (subBiquad c b) := by
  subst ht
  cases b
  cases c
  simp only [subBiquad, lerpBiquad, smulBiquad, Biquad.mk.injEq]
  refine ⟨?_, ?_, ?_, ?_, ?_, ?_⟩ <;> ring

/-- Claim C3: for a smoothed stateful Filter with transition length T: the
audible coefficients are the linear interpolation from the change-time values
toward the target, they equal the target exactly once T samples have been
consumed, after which smoothed processing coincides with a plain filter
carrying the new coefficients fed the same input tail from the same states; a
second change mid-transition restarts from the current interpolated values;
and each processed sample moves every coefficient by exactly the total
coefficient change divided by T. -/
theorem smoothing_transition {α : Type} [Field α] [CharZero α]
    (s : Smoother α) (hT : 0 < s.total)
    (hlen : s.startC.length = s.targetC.length) :
    (s.total ≤ s.elapsed → s.current = s.targetC) ∧
    (∀ st xs, s.total ≤ s.elapsed → st.length = s.targetC.length →
      (smoothedRun s st xs).1 = (plainRun s.targetC st xs).1) ∧
    (∀ newTarget : List (Biquad α),
      (s.retarget newTarget).startC = s.current ∧
      (s.retarget newTarget).elapsed = 0 ∧
      (newTarget.length = s.current.length →
        (s.retarget newTarget).current = s.current)) ∧
    (s.elapsed + 1 ≤ s.total →
      List.zipWith subBiquad s.tick.current s.current =
        List.zipWith (fun c b => smulBiquad (1 / (s.total : α)) (subBiquad c b))
          s.targetC s.startC) := by
  refine ⟨smoother_current_done s hT hlen, ?_, ?_, ?_⟩
  · intro st xs h hst
    exact smoothedRun_done xs s st hT hlen h hst
  · intro newTarget
    refine ⟨rfl, rfl, ?_⟩
    intro hl
    show List.zipWith _ s.current newTarget = s.current
    simp only [Smoother.retarget, Nat.cast_zero, Nat.zero_min, zero_div]
    rw [show lerpBiquad (0 : α) = fun (b c : Biquad α) => b from
      funext fun b => funext fun c => lerpBiquad_zero b c]
    exact zipWith_left_of_length_eq hl.symm
  · intro hstep
    have h1 : min (s.elapsed + 1) s.total = s.elapsed + 1 := min_eq_left hstep
    have h2 : min s.elapsed s.total = s.elapsed :=
      min_eq_left (Nat.le_of_succ_le hstep)
    have hdiff : ((s.elapsed + 1 : ℕ) : α) / (s.total : α) -
        ((s.elapsed : ℕ) : α) / (s.total : α) = 1 / (s.total : α) := by
      rw [div_sub_div_same]
      congr 1
      push_cast
      ring
    have e1 : s.tick.current = List.zipWith
        (lerpBiquad (((s.elapsed + 1 : ℕ) : α) / (s.total : α)))
        s.startC s.targetC := by
      show List.zipWith
        (lerpBiquad (((min (s.elapsed + 1) s.total : ℕ) : α) / (s.total : α)))
        s.startC s.targetC = _
      rw [h1]
    have e2 : s.current = List.zipWith
        (lerpBiquad (((s.elapsed : ℕ) : α) / (s.total : α)))
        s.startC s.targetC := by
      show List.zipWith
        (lerpBiquad (((min s.elapsed s.total : ℕ) : α) / (s.total : α)))
        s.startC s.targetC = _
      rw [h2]
    rw [e1, e2, zipWith_zipWith_pair,
      List.zipWith_comm (fun c b => smulBiquad (1 / (s.total : α))
        (subBiquad c b            ))]
    rw [show (fun (x y : Biquad α) => subBiquad
        (lerpBiquad (((s.elapsed + 1 : ℕ) : α) / (s.total : α)) x y)
        (lerpBiquad (((s.elapsed : ℕ) : α) / (s.total : α)) x y)) =
        fun (x y : Biquad α) => smulBiquad (1 / (s.total : α)) (subBiquad y x)
      from funext fun x => funext fun y => sub_lerp_lerp _ _ _ hdiff x y]

/-- Witness for C3 at a concrete one-section smoother over the rationals with
transition length 4. -/
theorem smoothing_transition_witness :
    0 < (Smoother.mk [unitBiquad] [⟨1, 1/2, 0, 1, 0, 0⟩] 0 4 :
      Smoother ℚ).total ∧
    (Smoother.mk [unitBiquad] [⟨1, 1/2, 0, 1, 0, 0⟩] 0 4 :
      Smoother ℚ).startC.length =
      (Smoother.mk [unitBiquad] [⟨1, 1/2, 0, 1, 0, 0⟩] 0 4 :
        Smoother ℚ).targetC.length ∧
    (((Smoother.mk [unitBiquad] [⟨1, 1/2, 0, 1, 0, 0⟩] 0 4 :
        Smoother ℚ).total ≤ (Smoother.mk [unitBiquad] [⟨1, 1/2, 0, 1, 0, 0⟩]
        0 4 : Smoother ℚ).elapsed →
      (Smoother.mk [unitBiquad] [⟨1, 1/2, 0, 1, 0, 0⟩] 0 4 :
        Smoother ℚ).current = (Smoother.mk [unitBiquad] [⟨1, 1/2, 0, 1, 0, 0⟩]
        0 4 : Smoother ℚ).targetC) ∧
    (∀ st xs, (Smoother.mk [unitBiquad] [⟨1, 1/2, 0, 1, 0, 0⟩] 0 4 :
        Smoother ℚ).total ≤ (Smoother.mk [unitBiquad] [⟨1, 1/2, 0, 1, 0, 0⟩]
        0 4 : Smoother ℚ).elapsed →
      st.length = (Smoother.mk [unitBiquad] [⟨1, 1/2, 0, 1, 0, 0⟩] 0 4 :
        Smoother ℚ).targetC.length →
      (smoothedRun (Smoother.mk [unitBiquad] [⟨1, 1/2, 0, 1, 0, 0⟩] 0 4 :
        Smoother ℚ) st xs).1 =
      (plainRun (Smoother.mk [unitBiquad] [⟨1, 1/2, 0, 1, 0, 0⟩] 0 4 :
        Smoother ℚ).targetC st xs).1) ∧
    (∀ newTarget : List (Biquad ℚ),
      ((Smoother.mk [unitBiquad] [⟨1, 1/2, 0, 1, 0, 0⟩] 0 4 :
        Smoother ℚ).retarget newTarget).startC =
        (Smoother.mk [unitBiquad] [⟨1, 1/2, 0, 1, 0, 0⟩] 0 4 :
        Smoother ℚ).current ∧
      ((Smoother.mk [unitBiquad] [⟨1, 1/2, 0, 1, 0, 0⟩] 0 4 :
        Smoother ℚ).retarget newTarget).elapsed = 0 ∧
      (newTarget.length = (Smoother.mk [unitBiquad] [⟨1, 1/2, 0, 1, 0, 0⟩]
          0 4 : Smoother ℚ).current.length →
        ((Smoother.mk [unitBiquad] [⟨1, 1/2, 0, 1, 0, 0⟩] 0 4 :
          Smoother ℚ).retarget newTarget).current =
        (Smoother.mk [unitBiquad] [⟨1, 1/2, 0, 1, 0, 0⟩] 0 4 :
          Smoother ℚ).current)) ∧
    ((Smoother.mk [unitBiquad] [⟨1, 1/2, 0, 1, 0, 0⟩] 0 4 :
        Smoother ℚ).elapsed + 1 ≤ (Smoother.mk [unitBiquad]
        [⟨1, 1/2, 0, 1, 0, 0⟩] 0 4 : Smoother ℚ).total →
      List.zipWith subBiquad (Smoother.mk [unitBiquad]
          [⟨1, 1/2, 0, 1, 0, 0⟩] 0 4 : Smoother ℚ).tick.current
        (Smoother.mk [unitBiquad] [⟨1, 1/2, 0, 1, 0, 0⟩] 0 4 :
          Smoother ℚ).current =
      List.zipWith (fun c b => smulBiquad (1 / ((Smoother.mk [unitBiquad]
          [⟨1, 1/2, 0, 1, 0, 0⟩] 0 4 : Smoother ℚ).total : ℚ))
          (subBiquad c b))
        (Smoother.mk [unitBiquad] [⟨1, 1/2, 0, 1, 0, 0⟩] 0 4 :
          Smoother ℚ).targetC
        (Smoother.mk [unitBiquad] [⟨1, 1/2, 0, 1, 0, 0⟩] 0 4 :
          Smoother ℚ).startC)) :=
  ⟨by decide, by decide,
    smoothing_transition (Smoother.mk [unitBiquad] [⟨1, 1/2, 0, 1, 0, 0⟩] 0 4)
      (by decide) (by decide)⟩

/- ### Stability and normalization lemmas -/

theorem lt_of_sq_lt_sq_of_nonneg {a b : ℝ} (ha : 0 ≤ a) (hb : 0 ≤ b)
    (h : a ^ 2 < b ^ 2) : a < b := by nlinarith

theorem sub_ofReal_ne_zero_of_re_neg {K : ℝ} {p : ℂ} (hK : 0 < K)
    (hp : p.re < 0) : (K : ℂ) - p ≠ 0 := by
  intro h
  have hre := congrArg Complex.re h
  simp only [Complex.sub_re, Complex.ofReal_re, Complex.zero_re] at hre
  linarith

theorem bilinear_stable {K : ℝ} {p : ℂ} (hK : 0 < K) (hp : p.re < 0) :
    Complex.abs (((K : ℂ) + p) / ((K : ℂ) - p)) < 1 := by
  have hden : (K : ℂ) - p ≠ 0 := sub_ofReal_ne_zero_of_re_neg hK hp
  rw [map_div₀, div_lt_one (AbsoluteValue.pos _ hden)]
  refine lt_of_sq_lt_sq_of_nonneg (AbsoluteValue.nonneg _ _)
    (AbsoluteValue.nonneg _ _) ?_
  rw [Complex.sq_abs, Complex.sq_abs]
  simp only [Complex.normSq_apply, Complex.add_re, Complex.add_im,
    Complex.sub_re, Complex.sub_im, Complex.ofReal_re, Complex.ofReal_im]
  nlinarith

theorem normSq_coe_mul_conj {K : ℝ} (p : ℂ) :
    ((normSq ((K : ℂ) - p) : ℝ) : ℂ) =
      ((K : ℂ) - p) * ((K : ℂ) - (starRingEnd ℂ) p) := by
  rw [← Complex.mul_conj]
  simp [map_sub, Complex.conj_ofReal]

theorem normSq_coe_mul_conj_add {K : ℝ} (p : ℂ) :
    ((normSq ((K : ℂ) + p) : ℝ) : ℂ) =
      ((K : ℂ) + p) * ((K : ℂ) + (starRingEnd ℂ) p) := by
  rw [← Complex.mul_conj]
  simp [map_add, Complex.conj_ofReal]

theorem normSq_coe_self (p : ℂ) :
    ((normSq p : ℝ) : ℂ) = p * (starRingEnd ℂ) p := by
  rw [← Complex.mul_conj]

theorem pairBiquad_a1_coe {K : ℝ} {p : ℂ} (hK : 0 < K) (hp : p.re < 0) :
    (((pairBiquad K p).a1 : ℝ) : ℂ) =
      -((((K : ℂ) + p) / ((K : ℂ) - p)) +
        (((K : ℂ) + (starRingEnd ℂ) p) / ((K : ℂ) - (starRingEnd ℂ) p))) := by
  have hden1 : (K : ℂ) - p ≠ 0 := sub_ofReal_ne_zero_of_re_neg hK hp
  have hden2 : (K : ℂ) - (starRingEnd ℂ) p ≠ 0 :=
    sub_ofReal_ne_zero_of_re_neg hK (by simpa using hp)
  show ((( -2 * (K ^ 2 - normSq p)) / normSq ((K : ℂ) - p) : ℝ) : ℂ) = _
  push_cast
  rw [normSq_coe_mul_conj, normSq_coe_self]
  field_simp
  ring

theorem pairBiquad_a2_coe {K : ℝ} {p : ℂ} (hK : 0 < K) (hp : p.re < 0) :
    (((pairBiquad K p).a2 : ℝ) : ℂ) =
      ((((K : ℂ) + p) / ((K : ℂ) - p)) *
        (((K : ℂ) + (starRingEnd ℂ) p) / ((K : ℂ) - (starRingEnd ℂ) p))) := by
  have hden1 : (K : ℂ) - p ≠ 0 := sub_ofReal_ne_zero_of_re_neg hK hp
  have hden2 : (K : ℂ) - (starRingEnd ℂ) p ≠ 0 :=
    sub_ofReal_ne_zero_of_re_neg hK (by simpa using hp)
  show (((normSq ((K : ℂ) + p)) / normSq ((K : ℂ) - p) : ℝ) : ℂ) = _
  push_cast
  rw [normSq_coe_mul_conj, normSq_coe_mul_conj_add]
  field_simp

theorem pairBiquad_roots {K : ℝ} {p : ℂ} (hK : 0 < K) (hp : p.re < 0)
    (z : ℂ)
    (hz : z ^ 2 + (((pairBiquad K p).a1 : ℝ) : ℂ) * z +
      (((pairBiquad K p).a2 : ℝ) : ℂ) = 0) :
    z = ((K : ℂ) + p) / ((K : ℂ) - p) ∨
      z = ((K : ℂ) + (starRingEnd ℂ) p) / ((K : ℂ) - (starRingEnd ℂ) p) := by
  rw [pairBiquad_a1_coe hK hp, pairBiquad_a2_coe hK hp] at hz
  have hfact : (z - ((K : ℂ) + p) / ((K : ℂ) - p)) *
      (z - ((K : ℂ) + (starRingEnd ℂ) p) / ((K : ℂ) - (starRingEnd ℂ) p)) = 0 := by
    linear_combination hz
  rcases mul_eq_zero.mp hfact with h | h
  · exact Or.inl (sub_eq_zero.mp h)
  · exact Or.inr (sub_eq_zero.mp h)

theorem realPoleBiquad_a2 (K p : ℝ) : (realPoleBiquad K p).a2 = 0 := by
  show (0 : ℝ) / (K - p) = 0
  exact zero_div _

theorem realPoleBiquad_b2 (K p : ℝ) : (realPoleBiquad K p).b2 = 0 := by
  show (0 : ℝ) / (K - p) = 0
  exact zero_div _

theorem realPoleBiquad_roots {K p : ℝ} (hK : 0 < K) (hp : p < 0) (z : ℂ)
    (hz : z ^ 2 + (((realPoleBiquad K p).a1 : ℝ) : ℂ) * z +
      (((realPoleBiquad K p).a2 : ℝ) : ℂ) = 0) :
    z = 0 ∨ z = (((K + p) / (K - p) : ℝ) : ℂ) := by
  have hKp : K - p ≠ 0 := by linarith
  have ha1 : (((realPoleBiquad K p).a1 : ℝ) : ℂ) =
      ((( -(K + p)) / (K - p) : ℝ) : ℂ) := rfl
  rw [ha1, realPoleBiquad_a2] at hz
  push_cast at hz
  have hfact : z * (z - (((K + p) : ℝ) : ℂ) / (((K - p) : ℝ) : ℂ)) = 0 := by
    have hc : ((K : ℂ) - (p : ℂ)) ≠ 0 := by
      exact_mod_cast Complex.ofReal_ne_zero.mpr hKp
    field_simp at hz ⊢
    linear_combination hz
  rcases mul_eq_zero.mp hfact with h | h
  · exact Or.inl h
  · right
    rw [sub_eq_zero] at h
    rw [h]
    push_cast
    rfl

theorem cascadeOfProto_stable {K : ℝ} {P : ℕ → ℂ} {n : ℕ} (hK : 0 < K)
    (hP : ∀ j, j < n → (P j).re < 0) :
    ∀ b ∈ cascadeOfProto K P n, ∀ z : ℂ,
      z ^ 2 + ((b.a1 : ℝ) : ℂ) * z + ((b.a2 : ℝ) : ℂ) = 0 →
      Complex.abs z < 1 := by
  intro b hb z hz
  rcases List.mem_append.mp hb with hb | hb
  · obtain ⟨j, hj, rfl⟩ := List.mem_map.mp hb
    have hjn : j < n := lt_of_lt_of_le (List.mem_range.mp hj) (Nat.div_le_self n 2)
    rcases pairBiquad_roots hK (hP j hjn) z hz with h | h
    · rw [h]
      exact bilinear_stable hK (hP j hjn)
    · rw [h]
      exact bilinear_stable hK (by simpa using hP j hjn)
  · by_cases hodd : n % 2 = 1
    · rw [if_pos hodd] at hb
      have hb2 : b = realPoleBiquad K ((P (n / 2)).re) := by simpa using hb
      subst hb2
      have hmid : n / 2 < n := by omega
      have hneg : (P (n / 2)).re < 0 := hP _ hmid
      rcases realPoleBiquad_roots hK hneg z hz with h | h
      · rw [h]
        simp
      · rw [h, Complex.abs_ofReal]
        have h1 : 0 < K - (P (n / 2)).re := by linarith
        rw [abs_div, abs_of_pos h1, div_lt_one h1, abs_lt]
        constructor <;> linarith
    · rw [if_neg hodd] at hb
      simp at hb

theorem warpFactor_pos {fs fc : ℝ} (hfs : 0 < fs) (hfc : 0 < fc)
    (hfn : fc < fs / 2) : 0 < warpFactor fs fc := by
  have h1 : 0 < Real.pi * fc / fs := by positivity
  have h2 : Real.pi * fc / fs < Real.pi / 2 := by
    rw [div_lt_div_iff hfs two_pos]
    have := Real.pi_pos
    nlinarith
  exact one_div_pos.mpr (Real.tan_pos_of_pos_of_lt_pi_div_two h1 h2)

theorem butterworthPole_re_neg {n k : ℕ} (hn : 0 < n) (hk : k < n) :
    (butterworthPole n k).re < 0 := by
  unfold butterworthPole
  rw [Complex.exp_ofReal_mul_I_re]
  have hnr : (0 : ℝ) < n := Nat.cast_pos.mpr hn
  have hkr : (k : ℝ) + 1 ≤ n := by exact_mod_cast Nat.succ_le_of_lt hk
  have hpi := Real.pi_pos
  apply Real.cos_neg_of_pi_div_two_lt_of_lt
  · unfold butterworthAngle
    rw [lt_div_iff (by linarith)]
    nlinarith
  · unfold butterworthAngle
    rw [div_lt_iff (by linarith)]
    nlinarith

theorem chebyshevIPole_re_neg {n k : ℕ} {r : ℝ} (hn : 0 < n) (hk : k < n)
    (hr : 0 < r) : (chebyshevIPole n k r).re < 0 := by
  have heps : 0 < chebyshevEps r := by
    unfold chebyshevEps
    apply Real.sqrt_pos.mpr
    have : (1 : ℝ) < (10 : ℝ) ^ (r / 10) := by
      rw [Real.one_lt_rpow_iff_of_pos (by norm_num)]
      exact Or.inl ⟨by norm_num, by linarith⟩
    linarith
  have ha : 0 < chebyshevA n r := by
    unfold chebyshevA
    apply div_pos
    · exact Real.arsinh_pos_iff.mpr (by positivity)
    · exact_mod_cast hn
  have hsinh : 0 < Real.sinh (chebyshevA n r) := Real.sinh_pos_iff.mpr ha
  have hnr : (0 : ℝ) < n := Nat.cast_pos.mpr hn
  have hkr : (k : ℝ) + 1 ≤ n := by exact_mod_cast Nat.succ_le_of_lt hk
  have hpi := Real.pi_pos
  have hsin : 0 < Real.sin (chebyshevAngle n k) := by
    apply Real.sin_pos_of_pos_of_lt_pi
    · unfold chebyshevAngle
      positivity
    · unfold chebyshevAngle
      rw [div_lt_iff (by linarith)]
      nlinarith
  show -(Real.sinh (chebyshevA n r) * Real.sin (chebyshevAngle n k)) < 0
  nlinarith

theorem chebyshevIIPole_re_neg {n k : ℕ} {r : ℝ} (hn : 0 < n) (hk : k < n)
    (hr : 0 < r) : (chebyshevIIPole n k r).re < 0 := by
  have h1 : (chebyshevIPole n k r).re < 0 := chebyshevIPole_re_neg hn hk hr
  have hne : chebyshevIPole n k r ≠ 0 := by
    intro h
    rw [h] at h1
    simp at h1
  unfold chebyshevIIPole
  rw [Complex.inv_re]
  exact div_neg_of_neg_of_pos h1 (Complex.normSq_pos.mpr hne)

theorem rbj_quadratic_roots_abs_lt_one {b c : ℝ} (h1 : |b| < 1 + c)
    (h2 : c < 1) (z : ℂ) (hz : z ^ 2 + (b : ℂ) * z + (c : ℂ) = 0) :
    Complex.abs z < 1 := by
  by_cases him : z.im = 0
  · have hx : z = ((z.re : ℝ) : ℂ) := by
      exact Complex.ext rfl (by simp [him])
    rw [hx] at hz ⊢
    rw [Complex.abs_ofReal]
    set x := z.re with hxdef
    have hreal : x ^ 2 + b * x + c = 0 := by
      have := congrArg Complex.re hz
      simpa [pow_two, Complex.add_re, Complex.mul_re, Complex.ofReal_re,
        Complex.ofReal_im] using this
    rw [abs_lt]
    rcases abs_lt.mp h1 with ⟨hb1, hb2⟩
    constructor
    · by_contra hle
      push_neg at hle
      nlinarith
    · by_contra hle
      push_neg at hle
      nlinarith
  · have hw : z * (-(b : ℂ) - z) = (c : ℂ) := by linear_combination -hz
    have hwim : (-(b : ℂ) - z).im = -z.im := by simp
    have him2 := congrArg Complex.im hw
    simp only [Complex.mul_im, Complex.ofReal_im, Complex.sub_im,
      Complex.neg_im, Complex.sub_re, Complex.neg_re, Complex.ofReal_re] at him2
    have hkey : z.im * (-b - z.re) = z.im * z.re := by linarith
    have hwre : -b - z.re = z.re := mul_left_cancel₀ him hkey
    have hconj : -(b : ℂ) - z = (starRingEnd ℂ) z := by
      apply Complex.ext
      · simpa using hwre
      · simp
    rw [hconj, Complex.mul_conj] at hw
    have hc : normSq z = c := by exact_mod_cast hw
    have habs : Complex.abs z ^ 2 = c := by rw [Complex.sq_abs, hc]
    refine lt_of_sq_lt_sq_of_nonneg (AbsoluteValue.nonneg _ _) zero_le_one ?_
    rw [habs]
    simpa using h2

theorem rbjLowPass_coeff_bounds {fs fc q : ℝ} (hfs : 0 < fs) (hfc : 0 < fc)
    (hfn : fc < fs / 2) (hq : 0 < q) :
    |(rbjLowPass fs fc q).a1| < 1 + (rbjLowPass fs fc q).a2 ∧
      (rbjLowPass fs fc q).a2 < 1 := by
  have hw1 : 0 < 2 * Real.pi * fc / fs := by positivity
  have hw2 : 2 * Real.pi * fc / fs < Real.pi := by
    rw [div_lt_iff hfs]
    have := Real.pi_pos
    nlinarith
  have hsin : 0 < Real.sin (2 * Real.pi * fc / fs) :=
    Real.sin_pos_of_pos_of_lt_pi hw1 hw2
  have hal : 0 < Real.sin (2 * Real.pi * fc / fs) / (2 * q) := by positivity
  have hcos1 : Real.cos (2 * Real.pi * fc / fs) < 1 := by
    have := Real.cos_lt_cos_of_nonneg_of_le_pi (le_refl 0) hw2.le hw1
    simpa using this
  have hcos2 : -1 < Real.cos (2 * Real.pi * fc / fs) := by
    have := Real.cos_lt_cos_of_nonneg_of_le_pi hw1.le (le_refl Real.pi) hw2
    simpa using this
  have ha1 : (rbjLowPass fs fc q).a1 =
      (-2 * Real.cos (2 * Real.pi * fc / fs)) /
        (1 + Real.sin (2 * Real.pi * fc / fs) / (2 * q)) := rfl
  have ha2 : (rbjLowPass fs fc q).a2 =
      (1 - Real.sin (2 * Real.pi * fc / fs) / (2 * q)) /
        (1 + Real.sin (2 * Real.pi * fc / fs) / (2 * q)) := rfl
  have hden : 0 < 1 + Real.sin (2 * Real.pi * fc / fs) / (2 * q) := by linarith
  constructor
  · rw [ha1, ha2, abs_div, abs_of_pos hden]
    have hrhs : 1 + (1 - Real.sin (2 * Real.pi * fc / fs) / (2 * q)) /
        (1 + Real.sin (2 * Real.pi * fc / fs) / (2 * q)) =
        2 / (1 + Real.sin (2 * Real.pi * fc / fs) / (2 * q)) := by
      field_simp
      ring
    rw [hrhs, div_lt_div_iff hden hden]
    have habs : |(-2) * Real.cos (2 * Real.pi * fc / fs)| =
        2 * |Real.cos (2 * Real.pi * fc / fs)| := by
      rw [abs_mul]
      norm_num
    have hclt : |Real.cos (2 * Real.pi * fc / fs)| < 1 :=
      abs_lt.mpr ⟨hcos2, hcos1⟩
    rw [show (-2 : ℝ) * Real.cos (2 * Real.pi * fc / fs) =
      -2 * Real.cos (2 * Real.pi * fc / fs) from rfl] at habs
    nlinarith [abs_nonneg (Real.cos (2 * Real.pi * fc / fs))]
  · rw [ha2, div_lt_one hden]
    linarith

theorem rbjLowPass_stable {fs fc q : ℝ} (hfs : 0 < fs) (hfc : 0 < fc)
    (hfn : fc < fs / 2) (hq : 0 < q) (z : ℂ)
    (hz : z ^ 2 + (((rbjLowPass fs fc q).a1 : ℝ) : ℂ) * z +
      (((rbjLowPass fs fc q).a2 : ℝ) : ℂ) = 0) :
    Complex.abs z < 1 := by
  obtain ⟨h1, h2⟩ := rbjLowPass_coeff_bounds hfs hfc hfn hq
  exact rbj_quadratic_roots_abs_lt_one h1 h2 z hz

/-- Claim C1: every pole of the Cascade produced by a successful design call
lies strictly inside the unit circle, for every modelled filter family and
every valid order and parameter set. -/
theorem designed_cascade_poles_stable (k : DesignKind) (p : List ℝ)
    (h : paramsValid k p) :
    ∀ b ∈ designCascade k p, ∀ z : ℂ,
      z ^ 2 + ((b.a1 : ℝ) : ℂ) * z + ((b.a2 : ℝ) : ℂ) = 0 →
      Complex.abs z < 1 := by
  obtain ⟨hord, hfs, hfc, hfn, hextra⟩ := h
  cases k with
  | butterworthLowPass n =>
    exact cascadeOfProto_stable (warpFactor_pos hfs hfc hfn)
      (fun j hj => butterworthPole_re_neg hord hj)
  | chebyshevILowPass n =>
    obtain ⟨-, hr⟩ := hextra
    exact cascadeOfProto_stable (warpFactor_pos hfs hfc hfn)
      (fun j hj => chebyshevIPole_re_neg hord hj hr)
  | chebyshevIBandStop n =>
    obtain ⟨-, -, hr⟩ := hextra
    exact cascadeOfProto_stable (warpFactor_pos hfs hfc hfn)
      (fun j hj => chebyshevIPole_re_neg hord hj hr)
  | chebyshevIILowPass n =>
    obtain ⟨-, hr⟩ := hextra
    exact cascadeOfProto_stable (warpFactor_pos hfs hfc hfn)
      (fun j hj => chebyshevIIPole_re_neg hord hj hr)
  | rbjLowPass =>
    intro b hb z hz
    have hb2 : b = rbjLowPass (p.getD 0 0) (p.getD 1 0) (p.getD 2 0) := by
      simpa [designCascade] using hb
    subst hb2
    exact rbjLowPass_stable hfs hfc hfn hextra z hz

/-- Witness for C1 at the Chebyshev I band-stop of order 3 at sample rate
44100, center 4000, width 880, ripple 1 dB. -/
theorem designed_cascade_poles_stable_witness :
    paramsValid (DesignKind.chebyshevIBandStop 3) [44100, 3, 4000, 880, 1] ∧
    (∀ b ∈ designCascade (DesignKind.chebyshevIBandStop 3)
        [44100, 3, 4000, 880, 1], ∀ z : ℂ,
      z ^ 2 + ((b.a1 : ℝ) : ℂ) * z + ((b.a2 : ℝ) : ℂ) = 0 →
      Complex.abs z < 1) := by
  have hv : paramsValid (DesignKind.chebyshevIBandStop 3)
      [44100, 3, 4000, 880, 1] := by
    refine ⟨by norm_num [DesignKind.order], ?_, ?_, ?_, ?_, ?_, ?_⟩ <;>
      norm_num [sampleRateParam, freqParam, DesignKind.freqIndex,
        familyExtraValid, List.getD]
  exact ⟨hv, designed_cascade_poles_stable _ _ hv⟩

theorem cascadeOfProto_a0 {K : ℝ} {P : ℕ → ℂ} {n : ℕ} (hK : 0 < K)
    (hP : ∀ j, j < n → (P j).re < 0) :
    ∀ b ∈ cascadeOfProto K P n, b.a0 = 1 := by
  intro b hb
  rcases List.mem_append.mp hb with hb | hb
  · obtain ⟨j, hj, rfl⟩ := List.mem_map.mp hb
    have hjn : j < n := lt_of_lt_of_le (List.mem_range.mp hj) (Nat.div_le_self n 2)
    have hne : (K : ℂ) - P j ≠ 0 :=
      sub_ofReal_ne_zero_of_re_neg hK (hP j hjn)
    show normSq ((K : ℂ) - P j) / normSq ((K : ℂ) - P j) = 1
    exact div_self (Complex.normSq_pos.mpr hne).ne'
  · by_cases hodd : n % 2 = 1
    · rw [if_pos hodd] at hb
      have hb2 : b = realPoleBiquad K ((P (n / 2)).re) := by simpa using hb
      subst hb2
      have hmid : n / 2 < n := by omega
      have hneg : (P (n / 2)).re < 0 := hP _ hmid
      show (K - (P (n / 2)).re) / (K - (P (n / 2)).re) = 1
      exact div_self (by linarith)
    · rw [if_neg hodd] at hb
      simp at hb

/-- Claim C7: every Biquad of a Cascade produced by a successful design call
is normalized so that its a0 coefficient equals 1, for every modelled family
and every section. -/
theorem designed_cascade_a0_normalized (k : DesignKind) (p : List ℝ)
    (h : paramsValid k p) :
    ∀ b ∈ designCascade k p, b.a0 = 1 := by
  obtain ⟨hord, hfs, hfc, hfn, hextra⟩ := h
  cases k with
  | butterworthLowPass n =>
    exact cascadeOfProto_a0 (warpFactor_pos hfs hfc hfn)
      (fun j hj => butterworthPole_re_neg hord hj)
  | chebyshevILowPass n =>
    obtain ⟨-, hr⟩ := hextra
    exact cascadeOfProto_a0 (warpFactor_pos hfs hfc hfn)
      (fun j hj => chebyshevIPole_re_neg hord hj hr)
  | chebyshevIBandStop n =>
    obtain ⟨-, -, hr⟩ := hextra
    exact cascadeOfProto_a0 (warpFactor_pos hfs hfc hfn)
      (fun j hj => chebyshevIPole_re_neg hord hj hr)
  | chebyshevIILowPass n =>
    obtain ⟨-, hr⟩ := hextra
    exact cascadeOfProto_a0 (warpFactor_pos hfs hfc hfn)
      (fun j hj => chebyshevIIPole_re_neg hord hj hr)
  | rbjLowPass =>
    intro b hb
    have hb2 : b = rbjLowPass (p.getD 0 0) (p.getD 1 0) (p.getD 2 0) := by
      simpa [designCascade] using hb
    subst hb2
    have hfs2 : 0 < p.getD 0 0 := hfs
    have hfc2 : 0 < p.getD 1 0 := hfc
    have hfn2 : p.getD 1 0 < p.getD 0 0 / 2 := hfn
    have hq2 : 0 < p.getD 2 0 := hextra
    have hw1 : 0 < 2 * Real.pi * (p.getD 1 0) / (p.getD 0 0) := by
      have := Real.pi_pos
      exact div_pos (by nlinarith) hfs2
    have hw2 : 2 * Real.pi * (p.getD 1 0) / (p.getD 0 0) < Real.pi := by
      rw [div_lt_iff hfs2]
      have := Real.pi_pos
      nlinarith
    have hsin : 0 < Real.sin (2 * Real.pi * (p.getD 1 0) / (p.getD 0 0)) :=
      Real.sin_pos_of_pos_of_lt_pi hw1 hw2
    have hden : 0 < 1 + Real.sin (2 * Real.pi * (p.getD 1 0) / (p.getD 0 0)) /
        (2 * (p.getD 2 0)) := by
      have : 0 < Real.sin (2 * Real.pi * (p.getD 1 0) / (p.getD 0 0)) /
          (2 * (p.getD 2 0)) := div_pos hsin (by linarith)
      linarith
    show (1 + Real.sin (2 * Real.pi * (p.getD 1 0) / (p.getD 0 0)) /
        (2 * (p.getD 2 0))) /
      (1 + Real.sin (2 * Real.pi * (p.getD 1 0) / (p.getD 0 0)) /
        (2 * (p.getD 2 0))) = 1
    exact div_self hden.ne'

/-- Witness for C7 at a Butterworth low-pass of order 5. -/
theorem designed_cascade_a0_normalized_witness :
    paramsValid (DesignKind.butterworthLowPass 5) [48000, 5, 1000] ∧
    (∀ b ∈ designCascade (DesignKind.butterworthLowPass 5) [48000, 5, 1000],
      b.a0 = 1) := by
  have hv : paramsValid (DesignKind.butterworthLowPass 5) [48000, 5, 1000] := by
    refine ⟨by norm_num [DesignKind.order], ?_, ?_, ?_, ?_⟩ <;>
      norm_num [sampleRateParam, freqParam, DesignKind.freqIndex,
        familyExtraValid, List.getD]
  exact ⟨hv, designed_cascade_a0_normalized _ _ hv⟩

theorem cascadeOfProto_length (K : ℝ) (P : ℕ → ℂ) (n : ℕ) :
    (cascadeOfProto K P n).length = (n + 1) / 2 := by
  unfold cascadeOfProto
  rcases Nat.mod_two_eq_zero_or_one n with h | h
  · rw [if_neg (by omega)]
    simp only [List.append_nil, List.length_map, List.length_range]
    omega
  · rw [if_pos h]
    simp only [List.length_append, List.length_map, List.length_range,
      List.length_singleton]
    omega

theorem cascadeOfProto_last_degenerate (K : ℝ) (P : ℕ → ℂ) (n : ℕ)
    (h : n % 2 = 1) :
    ∃ b, (cascadeOfProto K P n).getLast? = some b ∧ b.a2 = 0 ∧ b.b2 = 0 := by
  refine ⟨realPoleBiquad K ((P (n / 2)).re), ?_, realPoleBiquad_a2 _ _,
    realPoleBiquad_b2 _ _⟩
  unfold cascadeOfProto
  rw [if_pos h, List.getLast?_append_of_ne_nil _ (by simp)]
  rfl

/-- Claim C6: for every modelled generalized-order design of valid order n, a
design call builds a Cascade of exactly ceil(n/2) sections, an odd n yielding
one trailing degenerate first-order section; in particular the Chebyshev I
band-stop of order 3 yields 2 sections and the RBJ design exactly one
biquad. -/
theorem designed_cascade_section_count (k : DesignKind) (p : List ℝ) :
    (designCascade k p).length = (k.order + 1) / 2 ∧
    (k ≠ DesignKind.rbjLowPass → k.order % 2 = 1 →
      ∃ b, (designCascade k p).getLast? = some b ∧ b.a2 = 0 ∧ b.b2 = 0) ∧
    (designCascade (DesignKind.chebyshevIBandStop 3) p).length = 2 ∧
    (designCascade DesignKind.rbjLowPass p).length = 1 := by
  refine ⟨?_, ?_, ?_, ?_⟩
  · cases k <;>
      simp [designCascade, butterworthCascade, cascadeOfProto_length,
        DesignKind.order]
  · intro hne hodd
    cases k with
    | butterworthLowPass n => exact cascadeOfProto_last_degenerate _ _ _ hodd
    | chebyshevILowPass n => exact cascadeOfProto_last_degenerate _ _ _ hodd
    | chebyshevIBandStop n => exact cascadeOfProto_last_degenerate _ _ _ hodd
    | chebyshevIILowPass n => exact cascadeOfProto_last_degenerate _ _ _ hodd
    | rbjLowPass => exact absurd rfl hne
  · simp [designCascade, cascadeOfProto_length]
  · simp [designCascade]

/-- Claim C10: a SimpleFilter over a raw FilterClass with the default channel
count 0 still accepts setup() and returns the designed coefficients through
getA0..getB2, per-stage access and getNumStages; coefficient computation and
extraction never touch channel state, so any channel count yields the same
cascade. -/
theorem simple_filter_coefficients_without_state (fs fc q : ℝ) :
    (simpleRbjLowPassSetup 0 fs fc q).getA0 = (rbjLowPass fs fc q).a0 ∧
    (simpleRbjLowPassSetup 0 fs fc q).getA1 = (rbjLowPass fs fc q).a1 ∧
    (simpleRbjLowPassSetup 0 fs fc q).getA2 = (rbjLowPass fs fc q).a2 ∧
    (simpleRbjLowPassSetup 0 fs fc q).getB0 = (rbjLowPass fs fc q).b0 ∧
    (simpleRbjLowPassSetup 0 fs fc q).getB1 = (rbjLowPass fs fc q).b1 ∧
    (simpleRbjLowPassSetup 0 fs fc q).getB2 = (rbjLowPass fs fc q).b2 ∧
    (simpleRbjLowPassSetup 0 fs fc q).chanStates = [] ∧
    (∀ c, (simpleRbjLowPassSetup c fs fc q).cascade =
      (simpleRbjLowPassSetup 0 fs fc q).cascade) ∧
    (∀ n, (simpleButterworthSetup 0 n fs fc).getNumStages = (n + 1) / 2 ∧
      (∀ c i, (simpleButterworthSetup c n fs fc).stage i =
        (simpleButterworthSetup 0 n fs fc).stage i)) := by
  refine ⟨rfl, rfl, rfl, rfl, rfl, rfl, rfl, fun c => rfl, fun n => ⟨?_, fun c i => rfl⟩⟩
  show (butterworthCascade n fs fc).length = (n + 1) / 2
  exact cascadeOfProto_length _ _ _

/- ### Butterworth response at the cutoff frequency -/

theorem normSq_butterworthPole (n k : ℕ) : normSq (butterworthPole n k) = 1 := by
  rw [← Complex.sq_abs]
  unfold butterworthPole
  rw [Complex.abs_exp_ofReal_mul_I]
  norm_num

theorem butterworthPole_shift {n : ℕ} (hn : 0 < n) (m : ℕ) :
    butterworthPole n (n + m) = -butterworthPole n m := by
  have hnr : ((n : ℝ)) ≠ 0 := Nat.cast_ne_zero.mpr hn.ne'
  have hang : butterworthAngle n (n + m) = butterworthAngle n m + Real.pi := by
    unfold butterworthAngle
    field_simp
    ring
  unfold butterworthPole
  rw [hang, Complex.ofReal_add, add_mul, Complex.exp_add,
    Complex.exp_pi_mul_I]
  ring

theorem butterworthPole_conj {n k : ℕ} (hn : 0 < n) (hk : k < n) :
    (starRingEnd ℂ) (butterworthPole n k) = butterworthPole n (n - 1 - k) := by
  have hnr : ((n : ℝ)) ≠ 0 := Nat.cast_ne_zero.mpr hn.ne'
  have hcast : ((n - 1 - k : ℕ) : ℝ) = (n : ℝ) - 1 - (k : ℝ) := by
    have h2 : n - 1 - k = n - (1 + k) := by omega
    rw [h2, Nat.cast_sub (by omega : 1 + k ≤ n)]
    push_cast
    ring
  have hsum : butterworthAngle n (n - 1 - k) =
      2 * Real.pi - butterworthAngle n k := by
    unfold butterworthAngle
    rw [hcast]
    field_simp
    ring
  unfold butterworthPole
  rw [hsum]
  rw [show (((2 * Real.pi - butterworthAngle n k : ℝ)) : ℂ) * Complex.I =
    2 * (Real.pi : ℂ) * Complex.I - (butterworthAngle n k : ℝ) * Complex.I from
    by push_cast; ring]
  rw [Complex.exp_sub, Complex.exp_two_pi_mul_I, ← Complex.exp_conj]
  rw [show (starRingEnd ℂ) ((butterworthAngle n k : ℝ) * Complex.I) =
    -((butterworthAngle n k : ℝ) * Complex.I) from by
    simp [Complex.conj_I]]
  rw [Complex.exp_neg, one_div]

theorem listProd_range_map {M : Type} [CommMonoid M] (g : ℕ → M) (m : ℕ) :
    ((List.range m).map g).prod = ∏ i ∈ Finset.range m, g i := by
  induction m with
  | zero => rfl
  | succ m ih =>
    rw [List.range_succ, List.map_append, List.prod_append,
      Finset.prod_range_succ, ih]
    simp

theorem prod_range_pair_split {M : Type} [CommMonoid M] (f : ℕ → M) (n : ℕ) :
    ∏ j ∈ Finset.range n, f j =
      (∏ k ∈ Finset.range (n / 2), (f k * f (n - 1 - k))) *
        (if n % 2 = 1 then f (n / 2) else 1) := by
  rcases Nat.mod_two_eq_zero_or_one n with hm | hm
  · obtain ⟨h, rfl⟩ : ∃ h, n = h + h := ⟨n / 2, by omega⟩
    have hdiv : (h + h) / 2 = h := by omega
    rw [if_neg (by omega), hdiv, mul_one, Finset.prod_range_add,
      Finset.prod_mul_distrib]
    congr 1
    rw [← Finset.prod_range_reflect (fun j => f (h + j)) h]
    exact Finset.prod_congr rfl fun j hj => by
      have := Finset.mem_range.mp hj
      congr 1
      omega
  · obtain ⟨h, rfl⟩ : ∃ h, n = h + (h + 1) := ⟨n / 2, by omega⟩
    have hdiv : (h + (h + 1)) / 2 = h := by omega
    rw [if_pos (by omega), hdiv, Finset.prod_range_add,
      Finset.prod_range_succ', Finset.prod_mul_distrib]
    have hrefl : ∏ k ∈ Finset.range h, f (h + (k + 1)) =
        ∏ k ∈ Finset.range h, f (h + (h + 1) - 1 - k) := by
      rw [← Finset.prod_range_reflect (fun j => f (h + (j + 1))) h]
      exact Finset.prod_congr rfl fun j hj => by
        have := Finset.mem_range.mp hj
        congr 1
        omega
    rw [hrefl]
    norm_num
    rw [mul_assoc]

theorem butterworth_allpole_prod {n : ℕ} (hn : 0 < n) :
    ∏ m ∈ Finset.range (2 * n), (Complex.I - butterworthPole n m) =
      2 * (-1 : ℂ) ^ n := by
  have h2n : (2 * n : ℕ) ≠ 0 := by omega
  have hnC : ((n : ℂ)) ≠ 0 := Nat.cast_ne_zero.mpr hn.ne'
  have hζ := Complex.isPrimitiveRoot_exp (2 * n) h2n
  have hb : (Complex.exp ((Real.pi * (n + 1) / (2 * n) : ℝ) * Complex.I)) ^
      (2 * n) = (-1 : ℂ) ^ (n + 1) := by
    rw [← Complex.exp_nat_mul]
    rw [show ((2 * n : ℕ) : ℂ) * ((Real.pi * (n + 1) / (2 * n) : ℝ) *
        Complex.I) = ((n + 1 : ℕ) : ℂ) * ((Real.pi : ℂ) * Complex.I) from by
      push_cast
      field_simp
      ring]
    rw [Complex.exp_nat_mul, Complex.exp_pi_mul_I]
  have hpoly := X_pow_sub_C_eq_prod hζ (by omega : 0 < 2 * n) hb
  have heval := congrArg (Polynomial.eval Complex.I) hpoly
  simp only [Polynomial.eval_sub, Polynomial.eval_pow, Polynomial.eval_X,
    Polynomial.eval_C, Polynomial.eval_prod] at heval
  have hpole : ∀ m : ℕ,
      Complex.exp (2 * (Real.pi : ℂ) * Complex.I / ((2 * n : ℕ) : ℂ)) ^ m *
        Complex.exp ((Real.pi * (n + 1) / (2 * n) : ℝ) * Complex.I) =
      butterworthPole n m := by
    intro m
    rw [← Complex.exp_nat_mul, ← Complex.exp_add]
    unfold butterworthPole butterworthAngle
    congr 1
    push_cast
    field_simp
    ring
  rw [Finset.prod_congr rfl (fun m _ => by rw [hpole m])] at heval
  rw [← heval]
  rw [show Complex.I ^ (2 * n) = ((-1 : ℂ)) ^ n from by
    rw [pow_mul]
    norm_num]
  rw [pow_succ]
  ring

theorem butterworth_conj_prod {n : ℕ} (hn : 0 < n) :
    (∏ k ∈ Finset.range n, (Complex.I - butterworthPole n k)) *
      (starRingEnd ℂ)
        (∏ k ∈ Finset.range n, (Complex.I - butterworthPole n k)) = 2 := by
  have hAB : (∏ k ∈ Finset.range n, (Complex.I - butterworthPole n k)) *
      (∏ k ∈ Finset.range n, (Complex.I + butterworthPole n k)) =
      2 * (-1 : ℂ) ^ n := by
    rw [← butterworth_allpole_prod hn, two_mul, Finset.prod_range_add]
    congr 1
    exact Finset.prod_congr rfl fun m _ => by
      rw [butterworthPole_shift hn m]
      ring
  have hconjA : (starRingEnd ℂ)
      (∏ k ∈ Finset.range n, (Complex.I - butterworthPole n k)) =
      (-1 : ℂ) ^ n *
        ∏ k ∈ Finset.range n, (Complex.I + butterworthPole n k) := by
    rw [map_prod]
    rw [Finset.prod_congr rfl (fun k hk => show
      (starRingEnd ℂ) (Complex.I - butterworthPole n k) =
        (-1 : ℂ) * (Complex.I + butterworthPole n (n - 1 - k)) from by
      rw [map_sub, Complex.conj_I,
        butterworthPole_conj hn (Finset.mem_range.mp hk)]
      ring)]
    rw [Finset.prod_mul_distrib, Finset.prod_const, Finset.card_range]
    congr 1
    exact Finset.prod_range_reflect (fun j => Complex.I + butterworthPole n j) n
  rw [hconjA, show (∏ k ∈ Finset.range n, (Complex.I - butterworthPole n k)) *
      ((-1 : ℂ) ^ n * ∏ k ∈ Finset.range n,
        (Complex.I + butterworthPole n k)) =
      (-1 : ℂ) ^ n * ((∏ k ∈ Finset.range n,
        (Complex.I - butterworthPole n k)) *
        ∏ k ∈ Finset.range n, (Complex.I + butterworthPole n k)) from by ring,
    hAB, show ((-1 : ℂ)) ^ n * (2 * (-1 : ℂ) ^ n) =
      2 * ((-1 : ℂ) ^ n * (-1 : ℂ) ^ n) from by ring, ← pow_add,
    show n + n = 2 * n from by omega, pow_mul]
  norm_num

theorem biquad_response_eq_poly (b : Biquad ℝ) (z : ℂ) (hz : z ≠ 0) :
    b.response z = ((b.b0 : ℂ) * z ^ 2 + (b.b1 : ℂ) * z + (b.b2 : ℂ)) /
      ((b.a0 : ℂ) * z ^ 2 + (b.a1 : ℂ) * z + (b.a2 : ℂ)) := by
  unfold Biquad.response
  have key : ∀ X Y : ℂ, X / Y = (z ^ 2 * X) / (z ^ 2 * Y) :=
    fun X Y => (mul_div_mul_left X Y (pow_ne_zero 2 hz)).symm
  rw [key]
  congr 1
  · field_simp
    ring
  · field_simp
    ring

theorem pairBiquad_response_val {K : ℝ} {p : ℂ}
    (ha0 : normSq ((K : ℂ) - p) ≠ 0) (z : ℂ) (hz : z ≠ 0) :
    (pairBiquad K p).response z =
      ((normSq p : ℝ) : ℂ) * (z + 1) ^ 2 /
        ((((K : ℂ) - p) * z - ((K : ℂ) + p)) *
          (((K : ℂ) - (starRingEnd ℂ) p) * z -
            ((K : ℂ) + (starRingEnd ℂ) p))) := by
  rw [biquad_response_eq_poly _ _ hz]
  have hcC : ((normSq ((K : ℂ) - p) : ℝ) : ℂ) ≠ 0 :=
    Complex.ofReal_ne_zero.mpr ha0
  have e_a0 : (((pairBiquad K p).a0 : ℝ) : ℂ) =
      ((normSq ((K : ℂ) - p) : ℝ) : ℂ) /
        ((normSq ((K : ℂ) - p) : ℝ) : ℂ) := by
    show ((normSq ((K : ℂ) - p) / normSq ((K : ℂ) - p) : ℝ) : ℂ) = _
    push_cast
    rfl
  have e_a1 : (((pairBiquad K p).a1 : ℝ) : ℂ) =
      (-2 * ((K : ℂ) ^ 2 - ((normSq p : ℝ) : ℂ))) /
        ((normSq ((K : ℂ) - p) : ℝ) : ℂ) := by
    show (((-2 * (K ^ 2 - normSq p)) / normSq ((K : ℂ) - p) : ℝ) : ℂ) = _
    push_cast
    rfl
  have e_a2 : (((pairBiquad K p).a2 : ℝ) : ℂ) =
      ((normSq ((K : ℂ) + p) : ℝ) : ℂ) /
        ((normSq ((K : ℂ) - p) : ℝ) : ℂ) := by
    show ((normSq ((K : ℂ) + p) / normSq ((K : ℂ) - p) : ℝ) : ℂ) = _
    push_cast
    rfl
  have e_b0 : (((pairBiquad K p).b0 : ℝ) : ℂ) =
      ((normSq p : ℝ) : ℂ) / ((normSq ((K : ℂ) - p) : ℝ) : ℂ) := by
    show ((normSq p / normSq ((K : ℂ) - p) : ℝ) : ℂ) = _
    push_cast
    rfl
  have e_b1 : (((pairBiquad K p).b1 : ℝ) : ℂ) =
      2 * ((normSq p : ℝ) : ℂ) / ((normSq ((K : ℂ) - p) : ℝ) : ℂ) := by
    show ((2 * normSq p / normSq ((K : ℂ) - p) : ℝ) : ℂ) = _
    push_cast
    rfl
  have e_b2 : (((pairBiquad K p).b2 : ℝ) : ℂ) =
      ((normSq p : ℝ) : ℂ) / ((normSq ((K : ℂ) - p) : ℝ) : ℂ) := by
    show ((normSq p / normSq ((K : ℂ) - p) : ℝ) : ℂ) = _
    push_cast
    rfl
  have hprodne : ((K : ℂ) - p) * ((K : ℂ) - (starRingEnd ℂ) p) ≠ 0 := by
    rw [← normSq_coe_mul_conj]
    exact hcC
  have hnum : (((pairBiquad K p).b0 : ℝ) : ℂ) * z ^ 2 +
      (((pairBiquad K p).b1 : ℝ) : ℂ) * z + (((pairBiquad K p).b2 : ℝ) : ℂ) =
      (1 / (((K : ℂ) - p) * ((K : ℂ) - (starRingEnd ℂ) p))) *
        (((normSq p : ℝ) : ℂ) * (z + 1) ^ 2) := by
    rw [e_b0, e_b1, e_b2, normSq_coe_mul_conj]
    ring
  have hden : (((pairBiquad K p).a0 : ℝ) : ℂ) * z ^ 2 +
      (((pairBiquad K p).a1 : ℝ) : ℂ) * z + (((pairBiquad K p).a2 : ℝ) : ℂ) =
      (1 / (((K : ℂ) - p) * ((K : ℂ) - (starRingEnd ℂ) p))) *
        ((((K : ℂ) - p) * z - ((K : ℂ) + p)) *
          (((K : ℂ) - (starRingEnd ℂ) p) * z -
            ((K : ℂ) + (starRingEnd ℂ) p))) := by
    rw [e_a0, e_a1, e_a2, normSq_coe_mul_conj, normSq_coe_mul_conj_add,
      normSq_coe_self]
    field_simp
    ring
  rw [hnum, hden, mul_div_mul_left _ _ (one_div_ne_zero hprodne)]

theorem realPoleBiquad_response_val {K pr : ℝ} (h : K - pr ≠ 0) (z : ℂ)
    (hz : z ≠ 0) :
    (realPoleBiquad K pr).response z =
      ((-pr : ℝ) : ℂ) * (z + 1) /
        (((K - pr : ℝ) : ℂ) * z - ((K + pr : ℝ) : ℂ)) := by
  rw [biquad_response_eq_poly _ _ hz]
  have hcC : ((K - pr : ℝ) : ℂ) ≠ 0 := Complex.ofReal_ne_zero.mpr h
  have e_a0 : (((realPoleBiquad K pr).a0 : ℝ) : ℂ) =
      ((K - pr : ℝ) : ℂ) / ((K - pr : ℝ) : ℂ) := by
    show (((K - pr) / (K - pr) : ℝ) : ℂ) = _
    push_cast
    rfl
  have e_a1 : (((realPoleBiquad K pr).a1 : ℝ) : ℂ) =
      (-((K + pr : ℝ) : ℂ)) / ((K - pr : ℝ) : ℂ) := by
    show (((-(K + pr)) / (K - pr) : ℝ) : ℂ) = _
    push_cast
    rfl
  have e_a2 : (((realPoleBiquad K pr).a2 : ℝ) : ℂ) = 0 := by
    show (((0 : ℝ) / (K - pr) : ℝ) : ℂ) = 0
    push_cast
    exact zero_div _
  have e_b0 : (((realPoleBiquad K pr).b0 : ℝ) : ℂ) =
      ((-pr : ℝ) : ℂ) / ((K - pr : ℝ) : ℂ) := by
    show (((-pr) / (K - pr) : ℝ) : ℂ) = _
    push_cast
    rfl
  have e_b1 : (((realPoleBiquad K pr).b1 : ℝ) : ℂ) =
      ((-pr : ℝ) : ℂ) / ((K - pr : ℝ) : ℂ) := by
    show (((-pr) / (K - pr) : ℝ) : ℂ) = _
    push_cast
    rfl
  have e_b2 : (((realPoleBiquad K pr).b2 : ℝ) : ℂ) = 0 := by
    show (((0 : ℝ) / (K - pr) : ℝ) : ℂ) = 0
    push_cast
    exact zero_div _
  have hnum : (((realPoleBiquad K pr).b0 : ℝ) : ℂ) * z ^ 2 +
      (((realPoleBiquad K pr).b1 : ℝ) : ℂ) * z +
      (((realPoleBiquad K pr).b2 : ℝ) : ℂ) =
      (1 / ((K - pr : ℝ) : ℂ)) * (z * (((-pr : ℝ) : ℂ) * (z + 1))) := by
    rw [e_b0, e_b1, e_b2]
    ring
  have hden : (((realPoleBiquad K pr).a0 : ℝ) : ℂ) * z ^ 2 +
      (((realPoleBiquad K pr).a1 : ℝ) : ℂ) * z +
      (((realPoleBiquad K pr).a2 : ℝ) : ℂ) =
      (1 / ((K - pr : ℝ) : ℂ)) *
        (z * (((K - pr : ℝ) : ℂ) * z - ((K + pr : ℝ) : ℂ))) := by
    rw [e_a0, e_a1, e_a2]
    field_simp
    ring
  rw [hnum, hden, mul_div_mul_left _ _ (one_div_ne_zero hcC),
    mul_div_mul_left _ _ hz]

theorem butterworthPole_middle {n : ℕ} (hodd : n % 2 = 1) :
    butterworthPole n (n / 2) = -1 := by
  have hn : 0 < n := by omega
  have hcast : (2 : ℝ) * ((n / 2 : ℕ) : ℝ) = (n : ℝ) - 1 := by
    have h2 : 2 * (n / 2) = n - 1 := by omega
    have := congrArg (fun m : ℕ => (m : ℝ)) h2
    push_cast [Nat.cast_sub hn] at this
    linarith
  have hang : butterworthAngle n (n / 2) = Real.pi := by
    unfold butterworthAngle
    have hnr : ((n : ℝ)) ≠ 0 := Nat.cast_ne_zero.mpr hn.ne'
    rw [show (2 : ℝ) * ((n / 2 : ℕ) : ℝ) + (n : ℝ) + 1 = 2 * (n : ℝ) from by
      rw [hcast]; ring]
    field_simp
  unfold butterworthPole
  rw [hang, Complex.exp_pi_mul_I]

theorem butterworth_normSq_prod {n : ℕ} (hn : 0 < n) :
    ∏ k ∈ Finset.range n, normSq (Complex.I - butterworthPole n k) = 2 := by
  have h2 : ((∏ k ∈ Finset.range n,
      normSq (Complex.I - butterworthPole n k) : ℝ) : ℂ) = 2 := by
    rw [Complex.ofReal_prod]
    rw [Finset.prod_congr rfl (fun k _ =>
      (Complex.mul_conj (Complex.I - butterworthPole n k)).symm)]
    rw [Finset.prod_mul_distrib, ← map_prod]
    exact butterworth_conj_prod hn
  exact_mod_cast h2

theorem warp_at_cutoff {fs fc : ℝ} (hfs : 0 < fs) (hfc : 0 < fc)
    (hfn : fc < fs / 2) :
    ((warpFactor fs fc : ℝ) : ℂ) *
      (Complex.exp (2 * (Real.pi : ℂ) * ((fc / fs : ℝ) : ℂ) * Complex.I) - 1) =
    Complex.I *
      (Complex.exp (2 * (Real.pi : ℂ) * ((fc / fs : ℝ) : ℂ) * Complex.I) + 1) := by
  have hpi := Real.pi_pos
  have hh1 : 0 < Real.pi * fc / fs := by positivity
  have hh2 : Real.pi * fc / fs < Real.pi / 2 := by
    rw [div_lt_div_iff hfs two_pos]
    nlinarith
  have hcpos : 0 < Real.cos (Real.pi * fc / fs) :=
    Real.cos_pos_of_mem_Ioo ⟨by linarith, hh2⟩
  have hspos : 0 < Real.sin (Real.pi * fc / fs) :=
    Real.sin_pos_of_pos_of_lt_pi hh1 (by linarith)
  have hsC : ((Real.sin (Real.pi * fc / fs) : ℝ) : ℂ) ≠ 0 :=
    Complex.ofReal_ne_zero.mpr hspos.ne'
  have harg : 2 * (Real.pi : ℂ) * ((fc / fs : ℝ) : ℂ) * Complex.I =
      ((2 * (Real.pi * fc / fs) : ℝ) : ℂ) * Complex.I := by
    push_cast
    field_simp
    ring
  have hwf : warpFactor fs fc =
      Real.cos (Real.pi * fc / fs) / Real.sin (Real.pi * fc / fs) := by
    unfold warpFactor
    rw [Real.tan_eq_sin_div_cos, one_div_div]
  rw [harg, Complex.exp_mul_I, ← Complex.ofReal_cos, ← Complex.ofReal_sin,
    hwf, Real.cos_two_mul', Real.sin_two_mul, Complex.ofReal_div]
  have hpyth : ((Real.sin (Real.pi * fc / fs) : ℝ) : ℂ) ^ 2 +
      ((Real.cos (Real.pi * fc / fs) : ℝ) : ℂ) ^ 2 = 1 := by
    exact_mod_cast Real.sin_sq_add_cos_sq (Real.pi * fc / fs)
  rw [div_mul_eq_mul_div, div_eq_iff hsC]
  push_cast
  push_cast at hpyth
  have hI : Complex.I ^ 2 = -1 := Complex.I_sq
  linear_combination
    (Complex.cos ((Real.pi : ℂ) * (fc : ℂ) / (fs : ℂ)) +
      Complex.sin ((Real.pi : ℂ) * (fc : ℂ) / (fs : ℂ)) * Complex.I) * hpyth +
    (-2 * Complex.sin ((Real.pi : ℂ) * (fc : ℂ) / (fs : ℂ)) ^ 2 *
      Complex.cos ((Real.pi : ℂ) * (fc : ℂ) / (fs : ℂ))) * hI

theorem cutoff_z_add_one_ne_zero {fs fc : ℝ} (hfs : 0 < fs) (hfc : 0 < fc)
    (hfn : fc < fs / 2) :
    Complex.exp (2 * (Real.pi : ℂ) * ((fc / fs : ℝ) : ℂ) * Complex.I) + 1 ≠ 0 := by
  have hpi := Real.pi_pos
  have harg : 2 * (Real.pi : ℂ) * ((fc / fs : ℝ) : ℂ) * Complex.I =
      ((2 * (Real.pi * fc / fs) : ℝ) : ℂ) * Complex.I := by
    push_cast
    field_simp
    ring
  intro heq
  have him := congrArg Complex.im heq
  rw [harg] at him
  simp only [Complex.add_im, Complex.exp_ofReal_mul_I_im, Complex.one_im,
    Complex.zero_im, add_zero] at him
  have hs : 0 < Real.sin (2 * (Real.pi * fc / fs)) := by
    apply Real.sin_pos_of_pos_of_lt_pi
    · positivity
    · rw [show 2 * (Real.pi * fc / fs) = Real.pi * (2 * fc) / fs from by ring]
      rw [div_lt_iff hfs]
      nlinarith
  linarith

theorem denom_factor_at_cutoff {K : ℝ} {z : ℂ}
    (hwarp : ((K : ℝ) : ℂ) * (z - 1) = Complex.I * (z + 1)) (p : ℂ) :
    ((K : ℂ) - p) * z - ((K : ℂ) + p) = (z + 1) * (Complex.I - p) := by
  linear_combination hwarp

theorem butterworth_stage_prod_normSq {n : ℕ} {K : ℝ} (hn : 0 < n)
    (hK : 0 < K) {z : ℂ} (hz : z ≠ 0) (hz1 : z + 1 ≠ 0)
    (hwarp : ((K : ℝ) : ℂ) * (z - 1) = Complex.I * (z + 1)) :
    normSq (((cascadeOfProto K (butterworthPole n) n).map
      (fun b => b.response z)).prod) = 1 / 2 := by
  have hstage : ∀ k, k < n / 2 →
      normSq ((pairBiquad K (butterworthPole n k)).response z) =
      1 / (normSq (Complex.I - butterworthPole n k) *
        normSq (Complex.I - butterworthPole n (n - 1 - k))) := by
    intro k hk
    have hkn : k < n := lt_of_lt_of_le hk (Nat.div_le_self n 2)
    have hre := butterworthPole_re_neg hn hkn
    have ha0 : normSq ((K : ℂ) - butterworthPole n k) ≠ 0 :=
      (Complex.normSq_pos.mpr (sub_ofReal_ne_zero_of_re_neg hK hre)).ne'
    rw [pairBiquad_response_val ha0 z hz]
    rw [denom_factor_at_cutoff hwarp, denom_factor_at_cutoff hwarp]
    rw [normSq_butterworthPole, butterworthPole_conj hn hkn]
    rw [show ((1 : ℝ) : ℂ) * (z + 1) ^ 2 /
        ((z + 1) * (Complex.I - butterworthPole n k) *
          ((z + 1) * (Complex.I - butterworthPole n (n - 1 - k)))) =
        ((z + 1) ^ 2 * 1) / ((z + 1) ^ 2 *
          ((Complex.I - butterworthPole n k) *
            (Complex.I - butterworthPole n (n - 1 - k)))) from by
      push_cast
      ring]
    rw [mul_div_mul_left _ _ (pow_ne_zero 2 hz1)]
    simp [Complex.normSq_div, Complex.normSq_mul]
  unfold cascadeOfProto
  rw [List.map_append, List.prod_append, Complex.normSq_mul, List.map_map,
    listProd_range_map, map_prod]
  rw [Finset.prod_congr rfl (fun k hk => by
    have hk2 := Finset.mem_range.mp hk
    show normSq (((fun b => b.response z) ∘
      fun k => pairBiquad K (butterworthPole n k)) k) = _
    simp only [Function.comp_apply]
    exact hstage k hk2)]
  rw [Finset.prod_div_distrib, Finset.prod_const_one]
  have hp := prod_range_pair_split
    (fun j => normSq (Complex.I - butterworthPole n j)) n
  have htot := butterworth_normSq_prod hn
  rcases Nat.mod_two_eq_zero_or_one n with hm | hm
  · rw [if_neg (by omega)]
    rw [if_neg (by omega), mul_one] at hp
    simp only [List.map_nil, List.prod_nil, Complex.normSq_one, mul_one]
    rw [← hp, htot]
  · rw [if_pos hm]
    rw [if_pos hm] at hp
    have hmid := butterworthPole_middle hm
    simp only [List.map_cons, List.map_nil, List.prod_cons, List.prod_nil,
      mul_one]
    rw [hmid]
    rw [show ((-1 : ℂ)).re = (-1 : ℝ) from by simp]
    have hK1 : K - (-1) ≠ 0 := by linarith
    rw [realPoleBiquad_response_val hK1 z hz]
    have hdenmid : ((K - (-1) : ℝ) : ℂ) * z - ((K + (-1) : ℝ) : ℂ) =
        (z + 1) * (Complex.I - (-1)) := by
      push_cast
      linear_combination hwarp
    rw [hdenmid]
    rw [show ((-(-1) : ℝ) : ℂ) * (z + 1) = (z + 1) * 1 from by push_cast; ring]
    rw [mul_div_mul_left _ _ hz1]
    rw [hmid] at hp
    rw [hp] at htot
    rw [Complex.normSq_div, Complex.normSq_one]
    rw [one_div_mul_one_div]
    rw [htot]

/-- Claim C9: for a Butterworth low-pass design of any valid order, the
magnitude of response() at the nominal cutoff frequency is the half-power
point: the squared magnitude is exactly 1/2, i.e. -3.01 dB within a 0.001 dB
tolerance, independent of the order. -/
theorem butterworth_cutoff_response (n : ℕ) (fs fc : ℝ) (hn : 0 < n)
    (hfc : 0 < fc) (hfn : fc < fs / 2) :
    normSq (cascadeResponse (butterworthCascade n fs fc) (fc / fs)) = 1 / 2 ∧
    |20 * Real.logb 10
        (Complex.abs (cascadeResponse (butterworthCascade n fs fc) (fc / fs)))
      + 3.01| < 0.001 := by
  have hfs : 0 < fs := by linarith
  have hKpos := warpFactor_pos hfs hfc hfn
  have part1 : normSq (cascadeResponse (butterworthCascade n fs fc) (fc / fs))
      = 1 / 2 := by
    unfold cascadeResponse butterworthCascade
    exact butterworth_stage_prod_normSq hn hKpos (Complex.exp_ne_zero _)
      (cutoff_z_add_one_ne_zero hfs hfc hfn) (warp_at_cutoff hfs hfc hfn)
  refine ⟨part1, ?_⟩
  have habs2 : Complex.abs (cascadeResponse (butterworthCascade n fs fc)
      (fc / fs)) ^ 2 = 1 / 2 := by
    rw [Complex.sq_abs]
    exact part1
  have hlogabs : Real.log (Complex.abs (cascadeResponse
      (butterworthCascade n fs fc) (fc / fs))) = -(Real.log 2) / 2 := by
    have h := congrArg Real.log habs2
    rw [Real.log_pow] at h
    rw [show (1 : ℝ) / 2 = 2⁻¹ from by norm_num, Real.log_inv] at h
    push_cast at h
    linarith
  have hA1 : 0.6931471803 < Real.log 2 := Real.log_two_gt_d9
  have hA2 : Real.log 2 < 0.6931471808 := Real.log_two_lt_d9
  have hiden : 3 * Real.log 10 = 10 * Real.log 2 + Real.log 0.9765625 := by
    have h1 : ((10 : ℝ)) ^ (3 : ℕ) = ((2 : ℝ)) ^ (10 : ℕ) * 0.9765625 := by
      norm_num
    have h2 := congrArg Real.log h1
    rw [Real.log_pow, Real.log_mul (by positivity) (by norm_num),
      Real.log_pow] at h2
    push_cast at h2
    linarith
  have hCub : Real.log 0.9765625 ≤ -0.0234375 := by
    have h := Real.log_le_sub_one_of_pos (show (0 : ℝ) < 0.9765625 by norm_num)
    linarith
  have hClb : -0.024 ≤ Real.log 0.9765625 := by
    have h := Real.log_le_sub_one_of_pos
      (show (0 : ℝ) < (0.9765625 : ℝ)⁻¹ by norm_num)
    rw [Real.log_inv] at h
    have hinv : ((0.9765625 : ℝ))⁻¹ = 1.024 := by norm_num
    rw [hinv] at h
    linarith
  have hB_pos : 0 < Real.log 10 := by linarith
  have key1 : 3.009 * Real.log 10 < 10 * Real.log 2 := by linarith
  have key2 : 10 * Real.log 2 < 3.011 * Real.log 10 := by linarith
  rw [← Real.log_div_log, hlogabs]
  rw [show (20 : ℝ) * (-(Real.log 2) / 2 / Real.log 10) =
    -(10 * Real.log 2 / Real.log 10) from by ring]
  have hd1 : 3.009 < 10 * Real.log 2 / Real.log 10 :=
    (lt_div_iff hB_pos).mpr key1
  have hd2 : 10 * Real.log 2 / Real.log 10 < 3.011 :=
    (div_lt_iff hB_pos).mpr key2
  rw [abs_lt]
  constructor
  · linarith
  · linarith

/-- Witness for C9 at a Butterworth low-pass of order 4, sample rate 44100,
cutoff 4000. -/
theorem butterworth_cutoff_response_witness :
    (0 < 4 ∧ (0 : ℝ) < 4000 ∧ (4000 : ℝ) < 44100 / 2) ∧
    (normSq (cascadeResponse (butterworthCascade 4 44100 4000)
        (4000 / 44100)) = 1 / 2 ∧
      |20 * Real.logb 10 (Complex.abs (cascadeResponse
          (butterworthCascade 4 44100 4000) (4000 / 44100))) + 3.01| <
        0.001) :=
  ⟨⟨by norm_num, by norm_num, by norm_num⟩,
    butterworth_cutoff_response 4 44100 4000 (by norm_num) (by norm_num)
      (by norm_num)⟩

end Dsp
